import Mathlib

/-!
# raw_zlib: the bounded-buffer streaming codec contract

The repository is a thin Python binding around a streaming compression
library; its test suite (src/raw_zlib/test/test.py) exercises the
bounded-buffer streaming contract described in spec.md: a compressor and
decompressor driven by repeated `step` calls over caller-supplied buffers,
with flush directives, mid-stream parameter changes, preset dictionaries
and bit priming.

The engine itself is not part of the repository sources; following the
spec (which explicitly delegates the internal match-finding/entropy
algorithms and specifies only the streaming control contract), the codec
is modelled here from the spec's words: a token stream (literal and run
tokens, block and stream terminators) wrapped in the framing selected by
`window_bits`, driven by a session state machine whose cursors, counters,
flush handling, parameter controller and dictionary manager follow spec
sections 3 through 7.  The helper `_shl` used by the bit-priming test is
translated from the test source.
-/

namespace RawZlib

/-- A byte. -/
abbrev Byte := Fin 256

/-- The result statuses of the per-call surface, mirroring the zlib
constants used by the tests: `ok` = Z_OK, `streamEnd` = Z_STREAM_END,
`needDict` = Z_NEED_DICT, `bufError` = Z_BUF_ERROR (the exhaustion
signal), `streamError` = Z_STREAM_ERROR (misuse), `dataError` =
Z_DATA_ERROR (corruption / dictionary mismatch). -/
inductive ZStatus where
  | ok
  | streamEnd
  | needDict
  | bufError
  | streamError
  | dataError
  deriving DecidableEq, Repr

/-- Flush directives of `step`, mirroring Z_NO_FLUSH, Z_PARTIAL_FLUSH,
Z_SYNC_FLUSH, Z_FULL_FLUSH, Z_BLOCK and Z_FINISH. -/
inductive Flush where
  | noFlush
  | partialFlush
  | syncFlush
  | fullFlush
  | block
  | finish
  deriving DecidableEq, Repr

/-! ## Bits

The decompressor consumes its input as a bit stream (least significant
bit of each byte first), which is what makes bit priming meaningful. -/

/-- The 8 bits of a byte, least significant first. -/
def bitsOfByte (b : Byte) : List Bool :=
  [b.val.testBit 0, b.val.testBit 1, b.val.testBit 2, b.val.testBit 3,
   b.val.testBit 4, b.val.testBit 5, b.val.testBit 6, b.val.testBit 7]

/-- The bit stream of a byte list, least significant bit first. -/
def bitsOfBytes (l : List Byte) : List Bool :=
  l.flatMap bitsOfByte

/-- The low `n` bits of a value, least significant first. -/
def lowBits (n : Nat) (v : Nat) : List Bool :=
  (List.range n).map v.testBit

/-- The value of a bit list, least significant bit first. -/
def natOfBits : List Bool → Nat
  | [] => 0
  | b :: l => (cond b 1 0) + 2 * natOfBits l

/-- Read one byte (8 bits, LSB first) off a bit stream. -/
def readByteBits : List Bool → Option (Nat × List Bool)
  | b0 :: b1 :: b2 :: b3 :: b4 :: b5 :: b6 :: b7 :: rest =>
      some (natOfBits [b0, b1, b2, b3, b4, b5, b6, b7], rest)
  | _ => none

set_option maxRecDepth 4096 in
theorem natOfBits_bitsOfByte : ∀ b : Byte, natOfBits (bitsOfByte b) = b.val := by
  decide

theorem bitsOfByte_length (b : Byte) : (bitsOfByte b).length = 8 := rfl

theorem readByteBits_cons (b0 b1 b2 b3 b4 b5 b6 b7 : Bool) (rest : List Bool) :
    readByteBits (b0 :: b1 :: b2 :: b3 :: b4 :: b5 :: b6 :: b7 :: rest) =
      some (natOfBits [b0, b1, b2, b3, b4, b5, b6, b7], rest) := rfl

theorem readByteBits_bitsOfByte (b : Byte) (rest : List Bool) :
    readByteBits (bitsOfByte b ++ rest) = some (b.val, rest) := by
  have h := natOfBits_bitsOfByte b
  simp only [bitsOfByte] at h
  simp only [bitsOfByte, List.cons_append, List.nil_append]
  rw [readByteBits_cons, h]

theorem bitsOfBytes_nil : bitsOfBytes [] = [] := rfl

theorem bitsOfBytes_cons (b : Byte) (l : List Byte) :
    bitsOfBytes (b :: l) = bitsOfByte b ++ bitsOfBytes l := rfl

theorem bitsOfBytes_append (l₁ l₂ : List Byte) :
    bitsOfBytes (l₁ ++ l₂) = bitsOfBytes l₁ ++ bitsOfBytes l₂ := by
  simp [bitsOfBytes]

/-! ## Checksum

The model checksum over uncompressed data, used for the headered
containers' trailers and for the preset-dictionary identifier embedded in
the zlib header (spec 4.3: "the supplied bytes' checksum must match the
value embedded in the stream header"). -/

/-- Adler-style checksum base. -/
def adlerBase : Nat := 65521

/-- One checksum step: fold a byte into the `(s1, s2)` pair packed as
`s1 + 65536 * s2`. -/
def adlerStep (a : Nat) (b : Byte) : Nat :=
  let s1 := (a % 65536 + b.val) % adlerBase
  let s2 := (a / 65536 + s1) % adlerBase
  s1 + 65536 * s2

/-- Update a running checksum with a byte list. -/
def adlerUpdate (a : Nat) (l : List Byte) : Nat :=
  l.foldl adlerStep a

/-- Checksum of a whole byte list (initial value 1). -/
def adler32 (l : List Byte) : Nat :=
  adlerUpdate 1 l

theorem adlerUpdate_append (a : Nat) (l₁ l₂ : List Byte) :
    adlerUpdate a (l₁ ++ l₂) = adlerUpdate (adlerUpdate a l₁) l₂ := by
  simp [adlerUpdate]

theorem adlerStep_lt (a : Nat) (b : Byte) : adlerStep a b < 2 ^ 32 := by
  have h1 : (a % 65536 + b.val) % adlerBase < adlerBase := Nat.mod_lt _ (by decide)
  have h2 : (a / 65536 + (a % 65536 + b.val) % adlerBase) % adlerBase < adlerBase :=
    Nat.mod_lt _ (by decide)
  simp only [adlerStep]
  have : adlerBase = 65521 := rfl
  omega

theorem adlerUpdate_lt (a : Nat) (l : List Byte) (h : a < 2 ^ 32) :
    adlerUpdate a l < 2 ^ 32 := by
  induction l generalizing a with
  | nil => exact h
  | cons b l ih => exact ih _ (adlerStep_lt a b)

theorem adler32_lt (l : List Byte) : adler32 l < 2 ^ 32 :=
  adlerUpdate_lt 1 l (by norm_num)

/-- A 32-bit value as 4 bytes, big-endian (as the zlib container stores
its trailer checksum). -/
def be32 (v : Nat) : List Byte :=
  [⟨v / 2 ^ 24 % 256, Nat.mod_lt _ (by norm_num)⟩,
   ⟨v / 2 ^ 16 % 256, Nat.mod_lt _ (by norm_num)⟩,
   ⟨v / 2 ^ 8 % 256, Nat.mod_lt _ (by norm_num)⟩,
   ⟨v % 256, Nat.mod_lt _ (by norm_num)⟩]

/-- Reassemble a big-endian 4-byte value. -/
def be32val (b0 b1 b2 b3 : Nat) : Nat :=
  ((b0 * 256 + b1) * 256 + b2) * 256 + b3

theorem be32val_be32 (v : Nat) (h : v < 2 ^ 32) :
    be32val (v / 2 ^ 24 % 256) (v / 2 ^ 16 % 256) (v / 2 ^ 8 % 256) (v % 256) = v := by
  simp only [be32val]
  omega

/-! ## Compression parameters

`level` and `strategy` use the integer enumerators of the binding:
Z_DEFAULT_COMPRESSION = -1, levels 0..9, and strategies
Z_DEFAULT_STRATEGY = 0, Z_FILTERED = 1, Z_HUFFMAN_ONLY = 2, Z_RLE = 3,
Z_FIXED = 4. -/

/-- Compression tuning of a session (spec 3: level, strategy). -/
structure DParams where
  level : Int
  strategy : Int
  deriving DecidableEq, Repr

/-- A recognized `(level, strategy)` combination (spec 6: configuration
error if level/strategy is not a recognized enumerator). -/
def DParams.valid (p : DParams) : Prop :=
  (p.level = -1 ∨ (0 ≤ p.level ∧ p.level ≤ 9)) ∧ 0 ≤ p.strategy ∧ p.strategy ≤ 4

instance (p : DParams) : Decidable p.valid := by
  unfold DParams.valid; infer_instance

/-- The effective level: the default level stands for an intermediate
fixed setting. -/
def DParams.effLevel (p : DParams) : Int :=
  if p.level = -1 then 6 else p.level

/-- Modelled from the spec: whether the codec engine's tokenizer emits
run tokens.  Spec 4.5: strategy biases tokenization — level 0 stores
the data, Huffman-only disables back-references/matches; other settings
may emit run-length matches.  The engine internals are delegated by the
spec; only the choice's effect on the token stream is modelled. -/
def DParams.useRuns (p : DParams) : Bool :=
  p.effLevel != 0 && p.strategy != 2

/-! ## Container framing

Spec 6: container selection by `window_bits` sign/magnitude — positive
8..15 selects the zlib container (2-byte header + 4-byte trailer
checksum), negative -8..-15 raw DEFLATE (no header/trailer), and 16 and
above the gzip container. -/

/-- Container framings. -/
inductive Framing where
  | raw
  | zlib
  | gzip
  deriving DecidableEq, Repr

/-- Modelled from the spec: decode `window_bits` into a framing, or
nothing when the magnitude is out of the supported range (spec 6). -/
def framingOfWB (wb : Int) : Option Framing :=
  if 8 ≤ wb ∧ wb ≤ 15 then some .zlib
  else if -15 ≤ wb ∧ wb ≤ -8 then some .raw
  else if 16 ≤ wb ∧ wb ≤ 47 then some .gzip
  else none

/-- Modelled from the spec: container header bytes.  The zlib container
has a 2-byte header whose second byte carries the preset-dictionary flag,
followed by the dictionary checksum when a dictionary was preset
(spec 4.3: "the value embedded in the stream header"); raw framing has no
header; the gzip container is introduced by its magic bytes. -/
def header (fr : Framing) (dict : Option (List Byte)) : List Byte :=
  match fr with
  | .raw => []
  | .zlib =>
      match dict with
      | none => [120, 0]
      | some d => [120, 32] ++ be32 (adler32 d)
  | .gzip => [31, 139]

/-- Modelled from the spec: container trailer bytes — zlib appends the
4-byte checksum of the uncompressed data; gzip appends the checksum and
the input length; raw framing has neither. -/
def trailer (fr : Framing) (adl : Nat) (tin : Nat) : List Byte :=
  match fr with
  | .raw => []
  | .zlib => be32 adl
  | .gzip => be32 adl ++ be32 (tin % 2 ^ 32)

/-! ## The token stream

Modelled from the spec: the codec engine emits literal/run tokens and
block/stream terminators into the output stream (spec 4.5 delegates the
entropy details; the streaming contract only needs a self-delimiting,
resumable token stream).  Each token is byte-aligned: an opcode byte
followed by its operands. -/

/-- Tokens of the model compressed stream. -/
inductive Tok where
  | lit (b : Byte)
  | run (b : Byte) (n : Byte)
  | eob
  | eos
  deriving DecidableEq, Repr

/-- Encode one token. -/
def encTok : Tok → List Byte
  | .lit b => [0, b]
  | .run b n => [1, b, n]
  | .eob => [2]
  | .eos => [3]

/-- The uncompressed bytes a token stands for. -/
def outTok : Tok → List Byte
  | .lit b => [b]
  | .run b n => List.replicate n.val b
  | .eob => []
  | .eos => []

/-- Encode a token list. -/
def encToks (ts : List Tok) : List Byte :=
  (ts.map encTok).flatten

/-- Output of a token list. -/
def outToks (ts : List Tok) : List Byte :=
  (ts.map outTok).flatten

/-- Run-length tokenizer, carrying the currently open run (byte `b`,
count `n` with `1 ≤ n ≤ 255`). -/
def tokenizeAux : List Byte → Byte → Byte → List Tok
  | [], b, n => [.run b n]
  | c :: l, b, n =>
      if h : c = b ∧ n.val < 255 then
        tokenizeAux l b ⟨n.val + 1, by omega⟩
      else
        .run b n :: tokenizeAux l c 1

/-- Run-length tokenization of a byte list. -/
def tokenizeRuns : List Byte → List Tok
  | [] => []
  | b :: l => tokenizeAux l b 1

/-- Tokenize under the session's parameters: stored/huffman-only modes
emit literals, the rest emit maximal runs. -/
def tokenize (p : DParams) (l : List Byte) : List Tok :=
  if p.useRuns then tokenizeRuns l else l.map .lit

/-- The compressed body for input `l` under parameters `p`. -/
def encBody (p : DParams) (l : List Byte) : List Byte :=
  encToks (tokenize p l)

theorem encToks_append (t₁ t₂ : List Tok) :
    encToks (t₁ ++ t₂) = encToks t₁ ++ encToks t₂ := by
  simp [encToks]

theorem outToks_append (t₁ t₂ : List Tok) :
    outToks (t₁ ++ t₂) = outToks t₁ ++ outToks t₂ := by
  simp [outToks]

theorem outToks_tokenizeAux (l : List Byte) (b : Byte) (n : Byte) :
    outToks (tokenizeAux l b n) = List.replicate n.val b ++ l := by
  induction l generalizing b n with
  | nil => simp [tokenizeAux, outToks, outTok]
  | cons c l ih =>
      by_cases hc : c = b ∧ n.val < 255
      · rw [tokenizeAux, dif_pos hc, ih]
        obtain ⟨h1, h255⟩ := hc
        subst h1
        rw [List.replicate_succ' n.val c]
        simp
      · rw [tokenizeAux, dif_neg hc]
        have : outToks (Tok.run b n :: tokenizeAux l c 1) =
            List.replicate n.val b ++ outToks (tokenizeAux l c 1) := by
          simp [outToks, outTok]
        rw [this, ih]
        simp [List.replicate]

/-- Tokenization is lossless: the tokens' output is the input. -/
theorem outToks_tokenize (p : DParams) (l : List Byte) :
    outToks (tokenize p l) = l := by
  unfold tokenize
  by_cases h : p.useRuns = true
  · rw [if_pos h]
    cases l with
    | nil => rfl
    | cons b l => rw [tokenizeRuns, outToks_tokenizeAux]; simp [List.replicate]
  · rw [if_neg h]
    induction l with
    | nil => rfl
    | cons b l ih => simpa [outToks, outTok] using ih

/-- No tokenizer output contains block or stream terminators. -/
def plainTok (t : Tok) : Prop :=
  t ≠ .eob ∧ t ≠ .eos

theorem plainTok_tokenizeAux (l : List Byte) (b n : Byte) :
    ∀ t ∈ tokenizeAux l b n, plainTok t := by
  induction l generalizing b n with
  | nil => simp [tokenizeAux, plainTok]
  | cons c l ih =>
      by_cases hc : c = b ∧ n.val < 255
      · rw [tokenizeAux, dif_pos hc]; exact ih _ _
      · rw [tokenizeAux, dif_neg hc]
        intro t ht
        rcases List.mem_cons.mp ht with rfl | ht
        · exact ⟨fun h => Tok.noConfusion h, fun h => Tok.noConfusion h⟩
        · exact ih _ _ t ht

theorem plainTok_tokenize (p : DParams) (l : List Byte) :
    ∀ t ∈ tokenize p l, plainTok t := by
  unfold tokenize
  by_cases h : p.useRuns = true
  · rw [if_pos h]
    cases l with
    | nil => intro t ht; simp [tokenizeRuns] at ht
    | cons b l => rw [tokenizeRuns]; exact plainTok_tokenizeAux _ _ _
  · rw [if_neg h]
    intro t ht
    simp only [List.mem_map] at ht
    obtain ⟨b, _, rfl⟩ := ht
    exact ⟨fun hh => Tok.noConfusion hh, fun hh => Tok.noConfusion hh⟩

theorem length_tokenizeAux (l : List Byte) (b n : Byte) :
    (tokenizeAux l b n).length ≤ l.length + 1 := by
  induction l generalizing b n with
  | nil => simp [tokenizeAux]
  | cons c l ih =>
      by_cases hc : c = b ∧ n.val < 255
      · rw [tokenizeAux, dif_pos hc]
        exact le_trans (ih _ _) (by simp)
      · rw [tokenizeAux, dif_neg hc]
        simpa using Nat.succ_le_succ (ih _ _)

theorem length_encTok (t : Tok) : (encTok t).length ≤ 3 := by
  cases t <;> simp [encTok]

theorem length_encToks (ts : List Tok) : (encToks ts).length ≤ 3 * ts.length := by
  induction ts with
  | nil => simp [encToks]
  | cons t ts ih =>
      have h : encToks (t :: ts) = encTok t ++ encToks ts := rfl
      rw [h]
      have := length_encTok t
      simp only [List.length_append, List.length_cons]
      omega

/-- The compressed body never exceeds three bytes per input byte. -/
theorem length_encBody (p : DParams) (l : List Byte) :
    (encBody p l).length ≤ 3 * l.length := by
  unfold encBody tokenize
  by_cases h : p.useRuns = true
  · rw [if_pos h]
    cases l with
    | nil => simp [tokenizeRuns, encToks]
    | cons b l =>
        rw [tokenizeRuns]
        have h1 := length_encToks (tokenizeAux l b 1)
        have h2 := length_tokenizeAux l b 1
        simp only [List.length_cons]
        omega
  · rw [if_neg h]
    have h1 := length_encToks (l.map .lit)
    simpa using h1

/-! ## Decoding tokens off the bit stream -/

theorem natOfBits_lt (l : List Bool) : natOfBits l < 2 ^ l.length := by
  induction l with
  | nil => simp [natOfBits]
  | cons b l ih =>
      simp only [natOfBits, List.length_cons, pow_succ]
      cases b <;> simp <;> omega

/-- Read one byte off a bit stream (LSB first), as a `Byte`. -/
def readByte : List Bool → Option (Byte × List Bool)
  | b0 :: b1 :: b2 :: b3 :: b4 :: b5 :: b6 :: b7 :: rest =>
      some (⟨natOfBits [b0, b1, b2, b3, b4, b5, b6, b7],
             by simpa using natOfBits_lt [b0, b1, b2, b3, b4, b5, b6, b7]⟩, rest)
  | _ => none

theorem readByte_cons (b0 b1 b2 b3 b4 b5 b6 b7 : Bool) (rest : List Bool) :
    readByte (b0 :: b1 :: b2 :: b3 :: b4 :: b5 :: b6 :: b7 :: rest) =
      some (⟨natOfBits [b0, b1, b2, b3, b4, b5, b6, b7],
             by simpa using natOfBits_lt [b0, b1, b2, b3, b4, b5, b6, b7]⟩, rest) := rfl

theorem readByte_bitsOfByte (b : Byte) (rest : List Bool) :
    readByte (bitsOfByte b ++ rest) = some (b, rest) := by
  have h := natOfBits_bitsOfByte b
  simp only [bitsOfByte] at h
  simp only [bitsOfByte, List.cons_append, List.nil_append]
  rw [readByte_cons]
  exact congrArg (fun x => some (x, rest)) (Fin.ext h)

/-- Decode one token off the bit stream; fails when there are not enough
bits for a whole token. -/
def decTok (bits : List Bool) : Option (Tok × List Bool) :=
  match readByte bits with
  | none => none
  | some (op, r1) =>
      if op.val = 0 then
        match readByte r1 with
        | some (b, r2) => some (.lit b, r2)
        | none => none
      else if op.val = 1 then
        match readByte r1 with
        | some (b, r2) =>
            match readByte r2 with
            | some (n, r3) => some (.run b n, r3)
            | none => none
        | none => none
      else if op.val = 2 then some (.eob, r1)
      else if op.val = 3 then some (.eos, r1)
      else none

/-- Decoding inverts encoding, token by token, whatever follows. -/
theorem decTok_encTok (t : Tok) (rest : List Bool) :
    decTok (bitsOfBytes (encTok t) ++ rest) = some (t, rest) := by
  have h0 : ((0 : Byte)).val = 0 := rfl
  have h1 : ((1 : Byte)).val = 1 := rfl
  have h2 : ((2 : Byte)).val = 2 := rfl
  have h3 : ((3 : Byte)).val = 3 := rfl
  cases t <;>
    simp [decTok, encTok, bitsOfBytes, readByte_bitsOfByte, h0, h1, h2, h3]

/-! ## The compression session

Modelled from the spec (sections 3, 4.1, 4.2, 4.3): the Stream Session
in Compress mode.  Caller-supplied buffers are modelled as the input
byte list of a step and the `availOut` output capacity; the session owns
the unprocessed input tail (`pendIn`) and the produced-but-undelivered
compressed bytes (`pendOut`), per spec 5 ("any data it needs to remember
across calls ... must be copied into session-owned storage"). -/

/-- Compression session state. -/
structure DefState where
  framing : Framing
  params : DParams
  dict : Option (List Byte)
  started : Bool
  pendIn : List Byte
  pendOut : List Byte
  adler : Nat
  totalIn : Nat
  totalOut : Nat
  finished : Bool
  ended : Bool
  deriving DecidableEq, Repr

/-- Modelled from the spec: `deflateInit2` — a fresh Compress session
(spec 6 `init`). -/
def deflateInit (fr : Framing) (p : DParams) : DefState :=
  ⟨fr, p, none, false, [], [], 1, 0, 0, false, false⟩

/-- The header this session will emit on its first step. -/
def DefState.header (st : DefState) : List Byte :=
  RawZlib.header st.framing st.dict

/-- Modelled from the spec: the step operation of a Compress session
(`deflate(strm, flush)`).  Absorbs the offered input, emits the container
header on the first call, honors the flush directive (spec 4.1): NoFlush
buffers; Partial/Sync/Full/Block flushes drain the buffered input into
the stream up to a block boundary; Finish additionally writes the stream
terminator and container trailer and, once everything is delivered,
reports `streamEnd` and moves the session to Ended.  Returns the bytes
written into the caller's output buffer (at most `availOut`). -/
def deflate (st : DefState) (input : List Byte) (availOut : Nat) (flush : Flush) :
    List Byte × ZStatus × DefState :=
  if st.ended then ([], .streamError, st) else
  let st1 : DefState :=
    { st with pendIn := st.pendIn ++ input,
              adler := adlerUpdate st.adler input,
              totalIn := st.totalIn + input.length }
  let st2 : DefState :=
    if st1.started then st1
    else { st1 with started := true, pendOut := st1.header ++ st1.pendOut }
  let st3 : DefState :=
    match flush with
    | .noFlush => st2
    | .finish =>
        if st2.finished then st2
        else { st2 with
               pendOut := st2.pendOut ++ encBody st2.params st2.pendIn ++ encTok .eos
                            ++ trailer st2.framing st2.adler st2.totalIn,
               pendIn := [], finished := true }
    | _ => { st2 with
             pendOut := st2.pendOut ++ encBody st2.params st2.pendIn ++ encTok .eob,
             pendIn := [] }
  let out := st3.pendOut.take availOut
  let st4 : DefState :=
    { st3 with pendOut := st3.pendOut.drop availOut, totalOut := st3.totalOut + out.length }
  if st4.finished ∧ st4.pendOut = [] then (out, .streamEnd, { st4 with ended := true })
  else (out, .ok, st4)

/-- Modelled from the spec: the Parameter Controller (`deflateParams`,
spec 4.2).  With no buffered data the change is immediate; otherwise the
buffered input is first drained under the old parameters, bounded by the
available output space: when the drain completes the new parameters are
applied and the call reports `ok`, else it reports the exhaustion signal
(`bufError`) and leaves the parameters unchanged, to be retried. -/
def deflateParams (st : DefState) (level strategy : Int) (availOut : Nat) :
    List Byte × ZStatus × DefState :=
  let p : DParams := ⟨level, strategy⟩
  if st.ended then ([], .streamError, st) else
  if ¬ p.valid then ([], .streamError, st) else
  if p = st.params then ([], .ok, st) else
  if st.pendIn = [] ∧ st.pendOut = [] then ([], .ok, { st with params := p }) else
  let st1 : DefState :=
    { st with pendOut := st.pendOut ++ encBody st.params st.pendIn, pendIn := [] }
  let out := st1.pendOut.take availOut
  let st2 : DefState :=
    { st1 with pendOut := st1.pendOut.drop availOut, totalOut := st1.totalOut + out.length }
  if st2.pendOut = [] then (out, .ok, { st2 with params := p })
  else (out, .bufError, st2)

/-- Modelled from the spec: `deflateSetDictionary` (spec 4.3) — primes
the history with the dictionary.  Valid only before the first step for
the headered zlib container (where it is recorded so the emitted header
carries the dictionary checksum), at any point while Active for raw
framing, and invalid for the gzip container. -/
def deflateSetDictionary (st : DefState) (d : List Byte) : ZStatus × DefState :=
  if st.ended then (.streamError, st) else
  match st.framing with
  | .gzip => (.streamError, st)
  | .zlib =>
      if st.started then (.streamError, st)
      else (.ok, { st with dict := some d })
  | .raw => (.ok, { st with dict := some d })

/-- Modelled from the spec: `deflateBound` — an output size that is
always sufficient for compressing `n` fresh input bytes to completion
(header, at most three body bytes per input byte, stream terminator,
trailer). -/
def deflateBound (st : DefState) (n : Nat) : Nat :=
  st.header.length + 3 * n + 1 + 8

/-- The whole compressed stream for input `s` in one piece: header,
body, stream terminator, trailer. -/
def compressFull (fr : Framing) (p : DParams) (dict : Option (List Byte))
    (s : List Byte) : List Byte :=
  header fr dict ++ encBody p s ++ encTok .eos ++ trailer fr (adler32 s) s.length

/-! ## The decompression session

Modelled from the spec (sections 3, 4.1, 4.3): the Stream Session in
Decompress mode.  Input is consumed through a bit cursor (spec 2: the
Bit Cursor component; this is what `inflatePrime` composes with), output
decoded ahead of the caller's buffer is parked in session-owned `pend`
storage. -/

/-- Decompression phases: reading the container header, waiting for a
preset dictionary, decoding the body, finished, or corrupt. -/
inductive IPhase where
  | header
  | needDict (id : Nat)
  | body
  | done
  | corrupt
  deriving DecidableEq, Repr

/-- Decompression session state. -/
structure InfState where
  framing : Framing
  phase : IPhase
  bits : List Bool
  pend : List Byte
  adler : Nat
  totalIn : Nat
  totalOut : Nat
  dataType : Nat
  deriving DecidableEq, Repr

/-- Modelled from the spec: `inflateInit2` — a fresh Decompress session;
raw framing has no header to read. -/
def inflateInit (fr : Framing) : InfState :=
  ⟨fr, match fr with | .raw => .body | _ => .header, [], [], 1, 0, 0, 0⟩

/-- Read a big-endian 32-bit value (4 bytes) off the bit stream. -/
def read32 (bits : List Bool) : Option (Nat × List Bool) :=
  match readByte bits with
  | some (t0, r1) =>
      match readByte r1 with
      | some (t1, r2) =>
          match readByte r2 with
          | some (t2, r3) =>
              match readByte r3 with
              | some (t3, r4) => some (be32val t0.val t1.val t2.val t3.val, r4)
              | none => none
          | none => none
      | none => none
  | none => none

theorem read32_be32 (v : Nat) (h : v < 2 ^ 32) (rest : List Bool) :
    read32 (bitsOfBytes (be32 v) ++ rest) = some (v, rest) := by
  rw [show be32 v = ⟨v / 2 ^ 24 % 256, Nat.mod_lt _ (by norm_num)⟩ ::
        ⟨v / 2 ^ 16 % 256, Nat.mod_lt _ (by norm_num)⟩ ::
        ⟨v / 2 ^ 8 % 256, Nat.mod_lt _ (by norm_num)⟩ ::
        ⟨v % 256, Nat.mod_lt _ (by norm_num)⟩ :: [] from rfl]
  simp only [bitsOfBytes_cons, bitsOfBytes_nil, List.append_assoc, List.append_nil]
  simp only [read32, readByte_bitsOfByte]
  exact congrArg (fun x => some (x, rest)) (be32val_be32 v h)

/-- Modelled from the spec: parse the container header once enough input
has arrived.  The zlib header's dictionary flag sends the session into
`needDict` carrying the checksum embedded in the header (spec 4.1:
"NeedsDictionary (decompression only) — the header demands a preset
dictionary"). -/
def parseHeader (st : InfState) : InfState :=
  match st.phase, st.framing with
  | .header, .zlib =>
      (match readByte st.bits with
       | some (_, r1) =>
           match readByte r1 with
           | some (f, r2) =>
               if f.val &&& 32 ≠ 0 then
                 match read32 r2 with
                 | some (id, r3) => { st with phase := .needDict id, bits := r3 }
                 | none => st
               else { st with phase := .body, bits := r2 }
           | none => st
       | none => st)
  | .header, .gzip =>
      (match readByte st.bits with
       | some (_, r1) =>
           match readByte r1 with
           | some (_, r2) => { st with phase := .body, bits := r2 }
           | none => st
       | none => st)
  | _, _ => st

/-- Modelled from the spec: validate the container trailer after the
stream terminator; checksum (and, for gzip, length) mismatches are
stream corruption (spec 7). -/
def checkTrailer (st : InfState) (rest : List Bool) : InfState × ZStatus :=
  match st.framing with
  | .raw => ({ st with bits := rest, phase := .done }, .streamEnd)
  | .zlib =>
      match read32 rest with
      | some (v, r1) =>
          if v = st.adler then ({ st with bits := r1, phase := .done }, .streamEnd)
          else ({ st with bits := r1, phase := .corrupt }, .dataError)
      | none => (st, .bufError)
  | .gzip =>
      match read32 rest with
      | some (v, r1) =>
          match read32 r1 with
          | some (len, r2) =>
              if v = st.adler ∧ len = st.totalOut % 2 ^ 32 then
                ({ st with bits := r2, phase := .done }, .streamEnd)
              else ({ st with bits := r2, phase := .corrupt }, .dataError)
          | none => (st, .bufError)
      | none => (st, .bufError)

/-- Modelled from the spec: the decompressor's token loop.  Decodes
tokens off the bit cursor into the caller's remaining `room`, parking
overflow in `pend`; a block terminator under a `Block` flush stops at
the boundary and reports it through the `dataType` metadata (spec 4.1
`Block`); the stream terminator leads into the trailer check. -/
def infLoop (flush : Flush) : Nat → InfState → Nat → List Byte →
    InfState × List Byte × ZStatus
  | 0, st, _, acc => (st, acc, .ok)
  | fuel + 1, st, room, acc =>
      match decTok st.bits with
      | none => (st, acc, .bufError)
      | some (t, rest) =>
          match t with
          | .eos =>
              let r := checkTrailer st rest
              (r.1, acc, r.2)
          | .eob =>
              let st' := { st with bits := rest, dataType := 128 }
              if flush = .block then (st', acc, .ok)
              else infLoop flush fuel st' room acc
          | .lit b =>
              if room = 0 then ({ st with bits := rest, pend := [b] }, acc, .ok)
              else
                infLoop flush fuel
                  { st with bits := rest, adler := adlerStep st.adler b,
                            totalOut := st.totalOut + 1 } (room - 1) (acc ++ [b])
          | .run b n =>
              let k := min n.val room
              let st' : InfState :=
                { st with bits := rest,
                          adler := adlerUpdate st.adler (List.replicate k b),
                          totalOut := st.totalOut + k,
                          pend := List.replicate (n.val - k) b }
              if n.val ≤ room then
                infLoop flush fuel st' (room - k) (acc ++ List.replicate k b)
              else (st', acc ++ List.replicate k b, .ok)

/-- Modelled from the spec: the step operation of a Decompress session
(`inflate(strm, flush)`).  Absorbs the offered input into the bit
cursor, parses the header when due, reports `needDict` while a preset
dictionary is outstanding, delivers parked output first, then runs the
token loop.  The exhaustion signal is reported only when no progress was
possible (spec 4.1 edge-case policy). -/
def inflate (st : InfState) (input : List Byte) (availOut : Nat) (flush : Flush) :
    List Byte × ZStatus × InfState :=
  match st.phase with
  | .done => ([], .streamError, st)
  | .corrupt => ([], .dataError, st)
  | _ =>
      let st1 : InfState :=
        { st with bits := st.bits ++ bitsOfBytes input,
                  totalIn := st.totalIn + input.length }
      let st2 := parseHeader st1
      match st2.phase with
      | .needDict _ => ([], .needDict, st2)
      | .header => ([], if input.isEmpty then .bufError else .ok, st2)
      | .body =>
          let fromPend := st2.pend.take availOut
          let st3 : InfState :=
            { st2 with pend := st2.pend.drop availOut,
                       adler := adlerUpdate st2.adler fromPend,
                       totalOut := st2.totalOut + fromPend.length }
          if st3.pend.isEmpty then
            let r := infLoop flush st3.bits.length st3 (availOut - fromPend.length) fromPend
            let status := if r.2.2 = .bufError ∧ (input ≠ [] ∨ r.2.1 ≠ []) then .ok else r.2.2
            (r.2.1, status, r.1)
          else (fromPend, .ok, st3)
      | .done => ([], .streamError, st2)
      | .corrupt => ([], .dataError, st2)

/-- Modelled from the spec: `inflateSetDictionary` (spec 4.3) — for the
headered container, valid only in response to `NeedsDictionary` and the
supplied bytes' checksum must match the header's value, else the call
fails with a dictionary-mismatch error; for raw framing, valid at any
point while Active. -/
def inflateSetDictionary (st : InfState) (d : List Byte) : ZStatus × InfState :=
  match st.phase with
  | .needDict id =>
      if adler32 d = id then (.ok, { st with phase := .body })
      else (.dataError, st)
  | .body => if st.framing = .raw then (.ok, st) else (.streamError, st)
  | _ => (.streamError, st)

/-- Modelled from the spec: `inflatePrime(bits, value)` (spec 4.3 bit
priming) — injects the low `bits` bits of `value` into the engine's
input bit cursor ahead of subsequently supplied byte-aligned input. -/
def inflatePrime (st : InfState) (bits : Nat) (value : Nat) : ZStatus × InfState :=
  match st.phase with
  | .done => (.streamError, st)
  | .corrupt => (.streamError, st)
  | _ => (.ok, { st with bits := st.bits ++ lowBits bits value })

/-! ## Characterizing deflate steps -/

/-- The part of the final stream a session still owes before any further
body bytes: the header if not yet emitted, then the buffered output. -/
def streamRest (st : DefState) : List Byte :=
  (if st.started then [] else st.header) ++ st.pendOut

/-- Everything a `Finish` on a not-yet-finished session turns the
session's buffers into: owed stream prefix, body of the input tail,
stream terminator, trailer. -/
def finFull (st : DefState) : List Byte :=
  streamRest st ++ encBody st.params st.pendIn ++ encTok .eos
    ++ trailer st.framing st.adler st.totalIn

theorem deflate_noFlush_eq (st : DefState) (input : List Byte) (n : Nat)
    (hE : st.ended = false) (hF : st.finished = false) :
    deflate st input n .noFlush =
      ((streamRest st).take n, .ok,
       { st with started := true,
                 pendIn := st.pendIn ++ input,
                 adler := adlerUpdate st.adler input,
                 totalIn := st.totalIn + input.length,
                 pendOut := (streamRest st).drop n,
                 totalOut := st.totalOut + ((streamRest st).take n).length }) := by
  unfold deflate streamRest
  cases hs : st.started <;>
    simp [hE, hF, hs, DefState.header]

theorem deflate_finish_eq (st : DefState) (n : Nat)
    (hE : st.ended = false) (hF : st.finished = false) :
    deflate st [] n .finish =
      ((finFull st).take n,
       if (finFull st).drop n = [] then .streamEnd else .ok,
       { st with started := true, pendIn := [], finished := true,
                 pendOut := (finFull st).drop n,
                 totalOut := st.totalOut + ((finFull st).take n).length,
                 ended := decide ((finFull st).drop n = []) }) := by
  unfold deflate finFull streamRest
  cases hs : st.started <;>
    cases hd : decide ((finFull st).drop n = []) <;>
      simp only [finFull, streamRest, DefState.header, hs] at hd <;>
        simp_all [deflate, DefState.header, adlerUpdate, List.append_nil,
          -List.drop_eq_nil_iff, -List.take_eq_nil_iff]

theorem deflate_drain_eq (st : DefState) (n : Nat)
    (hE : st.ended = false) (hF : st.finished = true) (hs : st.started = true) :
    deflate st [] n .finish =
      (st.pendOut.take n,
       if st.pendOut.drop n = [] then .streamEnd else .ok,
       { st with pendOut := st.pendOut.drop n,
                 totalOut := st.totalOut + (st.pendOut.take n).length,
                 ended := decide (st.pendOut.drop n = []) }) := by
  unfold deflate
  cases hd : decide (st.pendOut.drop n = []) <;>
    simp_all [DefState.header, adlerUpdate,
      -List.drop_eq_nil_iff, -List.take_eq_nil_iff]

/-! ## Step drivers

The loops the tests drive the session with: feed input chunks under
`NoFlush` (as in `_deflate` of test.py), then request `Finish`
repeatedly, each call with a fresh output buffer, until `streamEnd` (as
in `test_1` / `test_3` of test.py). -/

/-- Feed a list of (input chunk, output capacity) steps with `NoFlush`;
returns all emitted bytes and the final state. -/
def feedChunks (st : DefState) : List (List Byte × Nat) → List Byte × DefState
  | [] => ([], st)
  | (c, n) :: rest =>
      let r := deflate st c n .noFlush
      let r2 := feedChunks r.2.2 rest
      (r.1 ++ r2.1, r2.2)

/-- Request `Finish` once per listed output capacity until the session
reports `streamEnd`; returns all emitted bytes, the last status and the
final state. -/
def finishDrain (st : DefState) : List Nat → List Byte × ZStatus × DefState
  | [] => ([], .ok, st)
  | n :: rest =>
      let r := deflate st [] n .finish
      match r.2.1 with
      | .streamEnd => (r.1, .streamEnd, r.2.2)
      | _ =>
          let r2 := finishDrain r.2.2 rest
          (r.1 ++ r2.1, r2.2.1, r2.2.2)

/-- Invariant of `NoFlush` feeding: a session that has neither finished
nor ended absorbs the chunks into its input tail, keeps its
configuration, and the emitted bytes plus what it still owes are exactly
what it owed before. -/
theorem feedChunks_spec (cs : List (List Byte × Nat)) (st : DefState)
    (hE : st.ended = false) (hF : st.finished = false) :
    (feedChunks st cs).2.ended = false ∧
    (feedChunks st cs).2.finished = false ∧
    (feedChunks st cs).2.framing = st.framing ∧
    (feedChunks st cs).2.params = st.params ∧
    (feedChunks st cs).2.dict = st.dict ∧
    (feedChunks st cs).2.pendIn = st.pendIn ++ (cs.map Prod.fst).flatten ∧
    (feedChunks st cs).2.adler = adlerUpdate st.adler (cs.map Prod.fst).flatten ∧
    (feedChunks st cs).2.totalIn = st.totalIn + (cs.map Prod.fst).flatten.length ∧
    (feedChunks st cs).1 ++ streamRest (feedChunks st cs).2 = streamRest st := by
  induction cs generalizing st with
  | nil =>
      simp [feedChunks, hE, hF, adlerUpdate]
  | cons cn rest ih =>
      obtain ⟨c, n⟩ := cn
      rw [feedChunks]
      rw [deflate_noFlush_eq st c n hE hF]
      have ih' := ih
        { st with started := true,
                  pendIn := st.pendIn ++ c,
                  adler := adlerUpdate st.adler c,
                  totalIn := st.totalIn + c.length,
                  pendOut := (streamRest st).drop n,
                  totalOut := st.totalOut + ((streamRest st).take n).length } hE hF
      obtain ⟨h1, h2, h3, h4, h5, h6, h7, h8, h9⟩ := ih'
      refine ⟨h1, h2, h3, h4, h5, ?_, ?_, ?_, ?_⟩
      · rw [show ((c, n) :: rest).map Prod.fst = c :: rest.map Prod.fst from rfl]
        rw [List.flatten_cons, ← List.append_assoc]
        exact h6
      · rw [show ((c, n) :: rest).map Prod.fst = c :: rest.map Prod.fst from rfl]
        rw [List.flatten_cons, adlerUpdate_append]
        exact h7
      · rw [show ((c, n) :: rest).map Prod.fst = c :: rest.map Prod.fst from rfl]
        rw [List.flatten_cons]
        simp only [List.length_append] at h8 ⊢
        omega
      · show List.take n (streamRest st) ++ _ ++ _ = _
        rw [List.append_assoc, h9]
        rw [show streamRest
            { st with started := true,
                      pendIn := st.pendIn ++ c,
                      adler := adlerUpdate st.adler c,
                      totalIn := st.totalIn + c.length,
                      pendOut := (streamRest st).drop n,
                      totalOut := st.totalOut + ((streamRest st).take n).length } =
            (streamRest st).drop n from rfl]
        exact List.take_append_drop n (streamRest st)

theorem finFull_length_pos (st : DefState) : 1 ≤ (finFull st).length := by
  unfold finFull
  simp [encTok]
  omega

/-- Draining an already-finished session: with one guaranteed output
byte per call and at least as many calls as pending bytes, everything
pending is emitted and the session ends. -/
theorem finishDrain_drain (outs : List Nat) (st : DefState)
    (hE : st.ended = false) (hF : st.finished = true) (hs : st.started = true)
    (hne : st.pendOut ≠ []) (hpos : ∀ o ∈ outs, 1 ≤ o)
    (hlen : st.pendOut.length ≤ outs.length) :
    (finishDrain st outs).1 = st.pendOut ∧
    (finishDrain st outs).2.1 = .streamEnd ∧
    (finishDrain st outs).2.2.ended = true := by
  induction outs generalizing st with
  | nil =>
      exfalso
      have h0 : st.pendOut.length ≤ 0 := by simpa using hlen
      have := List.length_pos.mpr hne
      omega
  | cons n rest ih =>
      rw [finishDrain, deflate_drain_eq st n hE hF hs]
      by_cases hd : st.pendOut.drop n = []
      · have hn : st.pendOut.length ≤ n := by
          have := List.drop_eq_nil_iff.mp hd
          omega
        simp only [hd, if_pos rfl]
        simp [List.take_of_length_le hn, hd]
      · have hn1 : 1 ≤ n := hpos n (List.mem_cons_self n rest)
        have hlt : n < st.pendOut.length := by
          by_contra hcon
          exact hd (List.drop_eq_nil_iff.mpr (by omega))
        have hdec : decide (st.pendOut.drop n = []) = false := by
          simpa using hd
        simp only [if_neg hd, hdec]
        have hrec := ih
          { st with pendOut := st.pendOut.drop n,
                    totalOut := st.totalOut + (st.pendOut.take n).length,
                    ended := false }
          rfl hF hs hd
          (fun o ho => hpos o (List.mem_cons_of_mem n ho))
          (by
            simp only [List.length_drop, List.length_cons] at hlen ⊢
            omega)
        obtain ⟨g1, g2, g3⟩ := hrec
        refine ⟨?_, g2, g3⟩
        show st.pendOut.take n ++ _ = st.pendOut
        rw [g1]
        exact List.take_append_drop n st.pendOut

/-- Finishing an unfinished session: with one guaranteed output byte per
call and at least `(finFull st).length` calls, the stream completes with
`streamEnd` and the emitted bytes are exactly `finFull st`. -/
theorem finishDrain_spec (outs : List Nat) (st : DefState)
    (hE : st.ended = false) (hF : st.finished = false)
    (hpos : ∀ o ∈ outs, 1 ≤ o)
    (hlen : (finFull st).length ≤ outs.length) :
    (finishDrain st outs).1 = finFull st ∧
    (finishDrain st outs).2.1 = .streamEnd ∧
    (finishDrain st outs).2.2.ended = true := by
  cases outs with
  | nil =>
      exfalso
      have := finFull_length_pos st
      have h0 : (finFull st).length ≤ 0 := by simpa using hlen
      omega
  | cons n rest =>
      rw [finishDrain, deflate_finish_eq st n hE hF]
      by_cases hd : (finFull st).drop n = []
      · have hn : (finFull st).length ≤ n := by
          have := List.drop_eq_nil_iff.mp hd
          omega
        simp only [hd, if_pos rfl]
        simp [List.take_of_length_le hn, hd]
      · have hn1 : 1 ≤ n := hpos n (List.mem_cons_self n rest)
        have hdec : decide ((finFull st).drop n = []) = false := by
          simpa using hd
        simp only [if_neg hd, hdec]
        have hrec := finishDrain_drain rest
          { st with started := true, pendIn := [], finished := true,
                    pendOut := (finFull st).drop n,
                    totalOut := st.totalOut + ((finFull st).take n).length,
                    ended := false }
          rfl rfl rfl hd
          (fun o ho => hpos o (List.mem_cons_of_mem n ho))
          (by
            simp only [List.length_drop, List.length_cons] at hlen ⊢
            omega)
        obtain ⟨g1, g2, g3⟩ := hrec
        refine ⟨?_, g2, g3⟩
        show (finFull st).take n ++ _ = finFull st
        rw [g1]
        exact List.take_append_drop n (finFull st)

/-! ## Characterizing the decompressor's token loop -/

theorem infLoop_toks (flush : Flush) (ts : List Tok)
    (st : InfState) (fuel room : Nat) (acc : List Byte) (rest : List Bool)
    (hplain : ∀ t ∈ ts, plainTok t)
    (hpend : st.pend = [])
    (hroom : (outToks ts).length ≤ room)
    (hbits : st.bits = bitsOfBytes (encToks ts) ++ rest) :
    infLoop flush (ts.length + fuel) st room acc =
      infLoop flush fuel
        { st with bits := rest,
                  adler := adlerUpdate st.adler (outToks ts),
                  totalOut := st.totalOut + (outToks ts).length,
                  pend := [] }
        (room - (outToks ts).length) (acc ++ outToks ts) := by
  induction ts generalizing st room acc with
  | nil =>
      obtain ⟨fr, ph, bits, pend, adl, tin, tout, dt⟩ := st
      simp only at hpend hbits
      subst hpend
      simp only [encToks, List.map_nil, List.flatten_nil, bitsOfBytes_nil,
        List.nil_append] at hbits
      subst hbits
      simp [outToks, adlerUpdate]
  | cons t ts ih =>
      obtain ⟨fr, ph, bits, pend, adl, tin, tout, dt⟩ := st
      simp only at hpend hbits
      subst hpend
      subst hbits
      rw [show encToks (t :: ts) = encTok t ++ encToks ts from rfl,
        bitsOfBytes_append, List.append_assoc]
      rw [show (t :: ts).length + fuel = (ts.length + fuel) + 1 from by
        simp; omega]
      rw [infLoop]
      simp only [decTok_encTok]
      cases t with
      | eob => exact absurd rfl (hplain .eob (List.mem_cons_self _ _)).1
      | eos => exact absurd rfl (hplain .eos (List.mem_cons_self _ _)).2
      | lit b =>
          have hL : outToks (Tok.lit b :: ts) = b :: outToks ts := rfl
          rw [hL] at hroom ⊢
          simp only [List.length_cons] at hroom
          have hr0 : ¬ room = 0 := by omega
          simp only [if_neg hr0]
          rw [ih _ (room - 1) (acc ++ [b])
            (fun u hu => hplain u (List.mem_cons_of_mem _ hu)) rfl
            (by omega) rfl]
          rw [show adlerUpdate adl (b :: outToks ts) =
                adlerUpdate (adlerStep adl b) (outToks ts) from rfl,
              show (b :: outToks ts).length = (outToks ts).length + 1 from rfl,
              show acc ++ b :: outToks ts = (acc ++ [b]) ++ outToks ts from by simp,
              show room - ((outToks ts).length + 1) = room - 1 - (outToks ts).length
                from by omega,
              show tout + ((outToks ts).length + 1) = tout + 1 + (outToks ts).length
                from by omega]
      | run b n =>
          have hL : outToks (Tok.run b n :: ts) =
              List.replicate n.val b ++ outToks ts := rfl
          rw [hL] at hroom ⊢
          simp only [List.length_append, List.length_replicate] at hroom
          have hnr : n.val ≤ room := by omega
          simp only [if_pos hnr, Nat.min_eq_left hnr, Nat.sub_self,
            List.replicate_zero]
          rw [ih _ (room - n.val) (acc ++ List.replicate n.val b)
            (fun u hu => hplain u (List.mem_cons_of_mem _ hu)) rfl
            (by omega) rfl]
          rw [adlerUpdate_append,
              show (List.replicate n.val b ++ outToks ts).length =
                n.val + (outToks ts).length from by simp,
              show acc ++ (List.replicate n.val b ++ outToks ts) =
                (acc ++ List.replicate n.val b) ++ outToks ts from by simp,
              show room - (n.val + (outToks ts).length) =
                room - n.val - (outToks ts).length from by omega,
              show tout + (n.val + (outToks ts).length) =
                tout + n.val + (outToks ts).length from by omega]

theorem bitsOfBytes_length (l : List Byte) : (bitsOfBytes l).length = 8 * l.length := by
  induction l with
  | nil => rfl
  | cons b l ih =>
      rw [bitsOfBytes_cons, List.length_append, ih, bitsOfByte_length,
        List.length_cons]
      omega

theorem length_le_encToks (ts : List Tok) : ts.length ≤ (encToks ts).length := by
  induction ts with
  | nil => simp [encToks]
  | cons t ts ih =>
      rw [show encToks (t :: ts) = encTok t ++ encToks ts from rfl]
      have h1 : 1 ≤ (encTok t).length := by cases t <;> simp [encTok]
      simp only [List.length_append, List.length_cons]
      omega

/-- At the stream terminator, with the matching trailer next on the bit
cursor, the loop validates the trailer and reports `streamEnd`. -/
theorem infLoop_eos (flush : Flush) (fuel : Nat) (st : InfState)
    (room : Nat) (acc : List Byte) (tin : Nat)
    (hadl : st.adler < 2 ^ 32)
    (htin : tin % 2 ^ 32 = st.totalOut % 2 ^ 32)
    (hbits : st.bits = bitsOfBytes (encTok .eos ++ trailer st.framing st.adler tin)) :
    infLoop flush (fuel + 1) st room acc =
      ({ st with bits := [], phase := .done }, acc, .streamEnd) := by
  obtain ⟨fr, ph, bits, pend, adl, tinS, tout, dt⟩ := st
  simp only at hbits hadl htin
  subst hbits
  rw [infLoop]
  rw [show bitsOfBytes (encTok .eos ++ trailer fr adl tin) =
    bitsOfBytes (encTok .eos) ++ (bitsOfBytes (trailer fr adl tin) ++ []) from by
      rw [bitsOfBytes_append, List.append_nil]]
  simp only [decTok_encTok]
  cases fr with
  | raw => simp [checkTrailer, trailer, bitsOfBytes]
  | zlib =>
      simp only [checkTrailer, trailer]
      rw [read32_be32 adl hadl]
      simp
  | gzip =>
      simp only [checkTrailer, trailer, bitsOfBytes_append, List.append_assoc]
      rw [read32_be32 adl hadl]
      simp only
      rw [read32_be32 (tin % 2 ^ 32) (Nat.mod_lt _ (by norm_num))]
      have htin' : tin % 4294967296 = tout % 4294967296 := htin
      simp [htin']

theorem parseHeader_body (st : InfState) (h : st.phase = .body) :
    parseHeader st = st := by
  unfold parseHeader
  split <;> simp_all

theorem parseHeader_zlib_nodict (st : InfState) (R : List Bool)
    (h : st.phase = .header) (hfr : st.framing = .zlib)
    (hb : st.bits = bitsOfBytes (header .zlib none) ++ R) :
    parseHeader st = { st with phase := .body, bits := R } := by
  obtain ⟨fr, ph, bits, pend, adl, tin, tout, dt⟩ := st
  simp only at h hfr hb
  subst h; subst hfr; subst hb
  rw [show bitsOfBytes (header .zlib none) ++ R =
    bitsOfByte 120 ++ (bitsOfByte 0 ++ R) from by
      simp [header, bitsOfBytes]]
  simp [parseHeader, readByte_bitsOfByte]

theorem parseHeader_zlib_dict (st : InfState) (d : List Byte) (R : List Bool)
    (h : st.phase = .header) (hfr : st.framing = .zlib)
    (hb : st.bits = bitsOfBytes (header .zlib (some d)) ++ R) :
    parseHeader st = { st with phase := .needDict (adler32 d), bits := R } := by
  obtain ⟨fr, ph, bits, pend, adl, tin, tout, dt⟩ := st
  simp only at h hfr hb
  subst h; subst hfr; subst hb
  rw [show bitsOfBytes (header .zlib (some d)) ++ R =
    bitsOfByte 120 ++ (bitsOfByte 32 ++ (bitsOfBytes (be32 (adler32 d)) ++ R)) from by
      simp [header, bitsOfBytes, List.flatMap_append]]
  have h32 : ¬ ((32 : Byte)).val &&& 32 = 0 := by decide
  simp [parseHeader, readByte_bitsOfByte, read32_be32 (adler32 d) (adler32_lt d), h32]

theorem parseHeader_gzip (st : InfState) (dict : Option (List Byte)) (R : List Bool)
    (h : st.phase = .header) (hfr : st.framing = .gzip)
    (hb : st.bits = bitsOfBytes (header .gzip dict) ++ R) :
    parseHeader st = { st with phase := .body, bits := R } := by
  obtain ⟨fr, ph, bits, pend, adl, tin, tout, dt⟩ := st
  simp only at h hfr hb
  subst h; subst hfr; subst hb
  rw [show bitsOfBytes (header .gzip dict) ++ R =
    bitsOfByte 31 ++ (bitsOfByte 139 ++ R) from by
      simp [header, bitsOfBytes]]
  simp [parseHeader, readByte_bitsOfByte]

/-- Unfolding one `inflate` call through header parsing and the token
loop, provided the loop does not report exhaustion. -/
theorem inflate_eq_of (st st2 st' : InfState) (input : List Byte)
    (availOut : Nat) (flush : Flush) (out : List Byte) (status : ZStatus)
    (hnd : st.phase ≠ .done) (hnc : st.phase ≠ .corrupt)
    (hph : parseHeader { st with bits := st.bits ++ bitsOfBytes input,
                                 totalIn := st.totalIn + input.length } = st2)
    (hb2 : st2.phase = .body) (hpend : st2.pend = [])
    (hr : infLoop flush st2.bits.length st2 availOut [] = (st', out, status))
    (hstat : status ≠ .bufError) :
    inflate st input availOut flush = (out, status, st') := by
  obtain ⟨fr, ph, bits, pend, adl, tin, tout, dt⟩ := st
  simp only at hnd hnc hph
  cases ph with
  | done => exact absurd rfl hnd
  | corrupt => exact absurd rfl hnc
  | header =>
      simp only [inflate]
      rw [hph]
      obtain ⟨fr2, ph2, bits2, pend2, adl2, tin2, tout2, dt2⟩ := st2
      simp only at hb2 hpend
      subst hb2; subst hpend
      simp only at hr
      simp only [List.take_nil, List.drop_nil, List.isEmpty_nil, if_true,
        adlerUpdate, List.foldl_nil, List.length_nil, Nat.add_zero, Nat.sub_zero]
      rw [hr]
      simp [hstat]
  | needDict id =>
      simp only [inflate]
      rw [hph]
      obtain ⟨fr2, ph2, bits2, pend2, adl2, tin2, tout2, dt2⟩ := st2
      simp only at hb2 hpend
      subst hb2; subst hpend
      simp only at hr
      simp only [List.take_nil, List.drop_nil, List.isEmpty_nil, if_true,
        adlerUpdate, List.foldl_nil, List.length_nil, Nat.add_zero, Nat.sub_zero]
      rw [hr]
      simp [hstat]
  | body =>
      simp only [inflate]
      rw [hph]
      obtain ⟨fr2, ph2, bits2, pend2, adl2, tin2, tout2, dt2⟩ := st2
      simp only at hb2 hpend
      subst hb2; subst hpend
      simp only at hr
      simp only [List.take_nil, List.drop_nil, List.isEmpty_nil, if_true,
        adlerUpdate, List.foldl_nil, List.length_nil, Nat.add_zero, Nat.sub_zero]
      rw [hr]
      simp [hstat]

/-- Decoding a complete body + terminator + matching trailer off the bit
cursor yields the original data and `streamEnd`.  Stated over an
arbitrary terminator-free token list so it covers multi-segment bodies
(parameter changes) as well as single-piece ones. -/
theorem infLoop_streamT (flush : Flush) (st : InfState) (ts : List Tok) (S : List Byte)
    (tin room fuel : Nat)
    (hplain : ∀ t ∈ ts, plainTok t) (hout : outToks ts = S)
    (hpend : st.pend = []) (hadl : st.adler < 2 ^ 32)
    (htin : tin % 2 ^ 32 = (st.totalOut + S.length) % 2 ^ 32)
    (hbits : st.bits = bitsOfBytes (encToks ts ++ encTok .eos
      ++ trailer st.framing (adlerUpdate st.adler S) tin))
    (hfuel : ts.length + 1 ≤ fuel)
    (hroom : S.length ≤ room) :
    infLoop flush fuel st room [] =
      ({ st with bits := [], phase := .done,
                 adler := adlerUpdate st.adler S,
                 totalOut := st.totalOut + S.length, pend := [] }, S, .streamEnd) := by
  rw [show fuel = ts.length + (fuel - ts.length) from by omega]
  rw [infLoop_toks flush ts st (fuel - ts.length) room []
    (bitsOfBytes (encTok .eos ++ trailer st.framing (adlerUpdate st.adler S) tin))
    hplain hpend (by rw [hout]; exact hroom)
    (by
      rw [hbits, show encToks ts ++ encTok .eos
          ++ trailer st.framing (adlerUpdate st.adler S) tin =
        encToks ts ++ (encTok .eos
          ++ trailer st.framing (adlerUpdate st.adler S) tin) from by
          rw [List.append_assoc]]
      rw [bitsOfBytes_append])]
  rw [hout, List.nil_append]
  rw [show fuel - ts.length = (fuel - ts.length - 1) + 1 from by omega]
  rw [infLoop_eos flush (fuel - ts.length - 1) _ _ _ tin
    (adlerUpdate_lt _ _ hadl) htin rfl]

theorem infLoop_stream (flush : Flush) (st : InfState) (p : DParams) (S : List Byte)
    (tin room fuel : Nat)
    (hpend : st.pend = []) (hadl : st.adler < 2 ^ 32)
    (htin : tin % 2 ^ 32 = (st.totalOut + S.length) % 2 ^ 32)
    (hbits : st.bits = bitsOfBytes (encBody p S ++ encTok .eos
      ++ trailer st.framing (adlerUpdate st.adler S) tin))
    (hfuel : (tokenize p S).length + 1 ≤ fuel)
    (hroom : S.length ≤ room) :
    infLoop flush fuel st room [] =
      ({ st with bits := [], phase := .done,
                 adler := adlerUpdate st.adler S,
                 totalOut := st.totalOut + S.length, pend := [] }, S, .streamEnd) :=
  infLoop_streamT flush st (tokenize p S) S tin room fuel
    (plainTok_tokenize p S) (outToks_tokenize p S) hpend hadl htin hbits hfuel hroom

/-- A whole compressed stream: header, body bytes, stream terminator,
trailer for the uncompressed data `S`. -/
def streamOf (fr : Framing) (d : Option (List Byte)) (body : List Byte)
    (S : List Byte) : List Byte :=
  header fr d ++ body ++ encTok .eos ++ trailer fr (adler32 S) S.length

theorem compressFull_eq_streamOf (fr : Framing) (p : DParams) (S : List Byte) :
    compressFull fr p none S = streamOf fr none (encBody p S) S := rfl

/-- Decompressing any complete stream whose body encodes `S` (in one or
several segments) with an output buffer of size `S.length` yields `S`
and `streamEnd`. -/
theorem inflate_streamOf (fr : Framing) (ts : List Tok) (S : List Byte)
    (hplain : ∀ t ∈ ts, plainTok t) (hout : outToks ts = S) :
    (inflate (inflateInit fr) (streamOf fr none (encToks ts) S) S.length .noFlush).1
      = S ∧
    (inflate (inflateInit fr) (streamOf fr none (encToks ts) S) S.length .noFlush).2.1
      = .streamEnd := by
  have hZlen : ts.length + 1 ≤ (streamOf fr none (encToks ts) S).length := by
    have h1 := length_le_encToks ts
    unfold streamOf
    simp only [List.length_append, encTok, List.length_cons, List.length_nil]
    omega
  have hZ8 : ts.length + 1 ≤ 8 * (streamOf fr none (encToks ts) S).length := by
    omega
  have key : ∀ st' out status,
      inflate (inflateInit fr) (streamOf fr none (encToks ts) S) S.length .noFlush
        = (out, status, st') →
      (inflate (inflateInit fr) (streamOf fr none (encToks ts) S) S.length
        .noFlush).1 = out ∧
      (inflate (inflateInit fr) (streamOf fr none (encToks ts) S) S.length
        .noFlush).2.1 = status := by
    intro st' out status h
    rw [h]
    exact ⟨rfl, rfl⟩
  have hfuelT : ts.length + 1 ≤
      (bitsOfBytes (encToks ts ++ encTok .eos
        ++ trailer fr (adler32 S) S.length)).length := by
    rw [bitsOfBytes_length]
    have h1 := length_le_encToks ts
    simp only [List.length_append, encTok, List.length_cons, List.length_nil]
    omega
  cases fr with
  | raw =>
      have hr := infLoop_streamT .noFlush
        { inflateInit .raw with
          bits := (inflateInit .raw).bits
            ++ bitsOfBytes (streamOf .raw none (encToks ts) S),
          totalIn := (inflateInit .raw).totalIn
            + (streamOf .raw none (encToks ts) S).length }
        ts S S.length S.length
        ((inflateInit .raw).bits ++ bitsOfBytes (streamOf .raw none (encToks ts) S)).length
        hplain hout
        rfl (by norm_num [inflateInit]) (by simp [inflateInit])
        (by simp [inflateInit, streamOf, header, trailer, adler32])
        (by
          simp only [inflateInit, List.nil_append, bitsOfBytes_length]
          exact hZ8)
        (le_refl _)
      exact key _ _ _ (inflate_eq_of _ _ _ _ _ _ _ _
        (by simp [inflateInit]) (by simp [inflateInit])
        (parseHeader_body _ rfl) rfl rfl hr (by simp))
  | zlib =>
      have hr := infLoop_streamT .noFlush
        { inflateInit .zlib with
          phase := .body,
          bits := bitsOfBytes (encToks ts ++ encTok .eos
            ++ trailer .zlib (adler32 S) S.length),
          totalIn := (inflateInit .zlib).totalIn
            + (streamOf .zlib none (encToks ts) S).length }
        ts S S.length S.length
        (bitsOfBytes (encToks ts ++ encTok .eos
          ++ trailer .zlib (adler32 S) S.length)).length
        hplain hout
        rfl (by norm_num [inflateInit]) (by simp [inflateInit])
        (by simp [inflateInit, adler32]) hfuelT (le_refl _)
      exact key _ _ _ (inflate_eq_of _ _ _ _ _ _ _ _
        (by simp [inflateInit]) (by simp [inflateInit])
        (parseHeader_zlib_nodict _
          (bitsOfBytes (encToks ts ++ encTok .eos
            ++ trailer .zlib (adler32 S) S.length)) rfl rfl
          (by
            show ([] : List Bool) ++ bitsOfBytes (streamOf .zlib none (encToks ts) S) = _
            rw [List.nil_append,
              show streamOf .zlib none (encToks ts) S = header .zlib none
                ++ (encToks ts ++ encTok .eos
                  ++ trailer .zlib (adler32 S) S.length) from by
                unfold streamOf
                simp [List.append_assoc],
              bitsOfBytes_append])) rfl rfl hr (by simp))
  | gzip =>
      have hr := infLoop_streamT .noFlush
        { inflateInit .gzip with
          phase := .body,
          bits := bitsOfBytes (encToks ts ++ encTok .eos
            ++ trailer .gzip (adler32 S) S.length),
          totalIn := (inflateInit .gzip).totalIn
            + (streamOf .gzip none (encToks ts) S).length }
        ts S S.length S.length
        (bitsOfBytes (encToks ts ++ encTok .eos
          ++ trailer .gzip (adler32 S) S.length)).length
        hplain hout
        rfl (by norm_num [inflateInit]) (by simp [inflateInit])
        (by simp [inflateInit, adler32]) hfuelT (le_refl _)
      exact key _ _ _ (inflate_eq_of _ _ _ _ _ _ _ _
        (by simp [inflateInit]) (by simp [inflateInit])
        (parseHeader_gzip _ none
          (bitsOfBytes (encToks ts ++ encTok .eos
            ++ trailer .gzip (adler32 S) S.length)) rfl rfl
          (by
            show ([] : List Bool) ++ bitsOfBytes (streamOf .gzip none (encToks ts) S) = _
            rw [List.nil_append,
              show streamOf .gzip none (encToks ts) S = header .gzip none
                ++ (encToks ts ++ encTok .eos
                  ++ trailer .gzip (adler32 S) S.length) from by
                unfold streamOf
                simp [List.append_assoc],
              bitsOfBytes_append])) rfl rfl hr (by simp))

theorem compressFull_length_ge (fr : Framing) (p : DParams) (d : Option (List Byte))
    (S : List Byte) :
    (tokenize p S).length + 1 ≤ (compressFull fr p d S).length := by
  have h1 : (tokenize p S).length ≤ (encBody p S).length := length_le_encToks _
  unfold compressFull
  simp only [List.length_append, encTok, List.length_cons, List.length_nil]
  omega

/-- Decompressing a complete one-piece compressed stream with an output
buffer of the original size yields the original data and `streamEnd`. -/
theorem inflate_compressFull (fr : Framing) (p : DParams) (S : List Byte) :
    (inflate (inflateInit fr) (compressFull fr p none S) S.length .noFlush).1 = S ∧
    (inflate (inflateInit fr) (compressFull fr p none S) S.length .noFlush).2.1
      = .streamEnd :=
  inflate_streamOf fr (tokenize p S) S (plainTok_tokenize p S) (outToks_tokenize p S)

/-- A step first copies the offered input into session-owned storage;
the rest of the call only depends on the absorbed state. -/
theorem deflate_absorb (st : DefState) (input : List Byte) (n : Nat) (flush : Flush)
    (hE : st.ended = false) :
    deflate st input n flush =
      deflate { st with pendIn := st.pendIn ++ input,
                        adler := adlerUpdate st.adler input,
                        totalIn := st.totalIn + input.length } [] n flush := by
  unfold deflate
  simp [hE, adlerUpdate]

theorem finFull_absorbed (fr : Framing) (p : DParams) (S : List Byte) :
    finFull { deflateInit fr p with
              pendIn := (deflateInit fr p).pendIn ++ S,
              adler := adlerUpdate (deflateInit fr p).adler S,
              totalIn := (deflateInit fr p).totalIn + S.length } =
      compressFull fr p none S := by
  unfold finFull compressFull streamRest DefState.header deflateInit
  simp [adler32]

/-- A single unchunked step: enough output space turns the whole input
into the whole stream at once, with `streamEnd`. -/
theorem deflate_oneShot (fr : Framing) (p : DParams) (S : List Byte) (n : Nat)
    (hn : (compressFull fr p none S).length ≤ n) :
    (deflate (deflateInit fr p) S n .finish).1 = compressFull fr p none S ∧
    (deflate (deflateInit fr p) S n .finish).2.1 = .streamEnd := by
  rw [deflate_absorb _ _ _ _ rfl]
  rw [deflate_finish_eq _ _ rfl rfl]
  rw [finFull_absorbed]
  have hd : (compressFull fr p none S).drop n = [] :=
    List.drop_eq_nil_iff.mpr hn
  rw [hd, if_pos rfl]
  exact ⟨List.take_of_length_le hn, rfl⟩

/-- A complete feed-then-finish run from a fresh session emits exactly
the canonical whole stream and reports `streamEnd`. -/
theorem compress_run (fr : Framing) (p : DParams) (cs : List (List Byte × Nat))
    (outs : List Nat) (hpos : ∀ o ∈ outs, 1 ≤ o)
    (hlen : (compressFull fr p none (cs.map Prod.fst).flatten).length ≤ outs.length) :
    (feedChunks (deflateInit fr p) cs).1
      ++ (finishDrain (feedChunks (deflateInit fr p) cs).2 outs).1
      = compressFull fr p none (cs.map Prod.fst).flatten ∧
    (finishDrain (feedChunks (deflateInit fr p) cs).2 outs).2.1 = .streamEnd := by
  obtain ⟨h1, h2, h3, h4, h5, h6, h7, h8, h9⟩ :=
    feedChunks_spec cs (deflateInit fr p) rfl rfl
  have hff : (feedChunks (deflateInit fr p) cs).1
      ++ finFull (feedChunks (deflateInit fr p) cs).2
      = compressFull fr p none (cs.map Prod.fst).flatten := by
    unfold finFull compressFull
    rw [← List.append_assoc, ← List.append_assoc, ← List.append_assoc]
    rw [List.append_assoc _ _ (encTok Tok.eos), List.append_assoc _ (encBody _ _),
      ← List.append_assoc]
    rw [h9, h3, h4, h6, h7, h8]
    unfold streamRest DefState.header deflateInit
    simp [adler32, List.append_assoc]
  have hlen2 : (finFull (feedChunks (deflateInit fr p) cs).2).length ≤ outs.length := by
    have := congrArg List.length hff
    simp only [List.length_append] at this
    omega
  obtain ⟨g1, g2, g3⟩ :=
    finishDrain_spec outs (feedChunks (deflateInit fr p) cs).2 h1 h2 hpos hlen2
  refine ⟨?_, g2⟩
  rw [g1, hff]

/-- Progress: so long as the session holds pending output, any step
offered at least one byte of output space emits at least one byte. -/
theorem deflate_progress (st : DefState) (input : List Byte) (m : Nat) (flush : Flush)
    (hE : st.ended = false) (hne : st.pendOut ≠ []) (hm : 1 ≤ m) :
    (deflate st input m flush).1 ≠ [] := by
  have hlp : 0 < st.pendOut.length := List.length_pos.mpr hne
  unfold deflate
  cases hs : st.started <;> cases hf : st.finished <;> cases flush <;>
    simp only [hE, hs, hf, Bool.false_eq_true, if_false, if_true,
      ite_false, ite_true, Bool.true_eq_false] <;>
    (try split) <;>
    · intro hcon
      rcases List.take_eq_nil_iff.mp hcon with h | h
      · omega
      · have hl := congrArg List.length h
        simp only [List.length_append, List.length_nil] at hl
        omega

theorem encBody_nil (p : DParams) : encBody p [] = [] := by
  unfold encBody tokenize
  by_cases h : p.useRuns = true <;> simp [h, tokenizeRuns, encToks]

theorem trailer_length_le (fr : Framing) (a t : Nat) :
    (trailer fr a t).length ≤ 8 := by
  cases fr <;> simp [trailer, be32]

/-- The Parameter Controller's behavior when buffered data must drain:
the buffered input is tokenized under the old parameters, as much as
fits is emitted, and the new parameters are applied exactly when the
drain completes. -/
theorem deflateParams_eq (st : DefState) (level strategy : Int) (availOut : Nat)
    (hE : st.ended = false)
    (hv : DParams.valid ⟨level, strategy⟩)
    (hne : (⟨level, strategy⟩ : DParams) ≠ st.params)
    (hbuf : ¬(st.pendIn = [] ∧ st.pendOut = [])) :
    deflateParams st level strategy availOut =
      ((st.pendOut ++ encBody st.params st.pendIn).take availOut,
       if (st.pendOut ++ encBody st.params st.pendIn).drop availOut = []
         then .ok else .bufError,
       { st with pendIn := [],
                 pendOut := (st.pendOut ++ encBody st.params st.pendIn).drop availOut,
                 totalOut := st.totalOut
                   + ((st.pendOut ++ encBody st.params st.pendIn).take availOut).length,
                 params :=
                   if (st.pendOut ++ encBody st.params st.pendIn).drop availOut = []
                     then ⟨level, strategy⟩ else st.params }) := by
  unfold deflateParams
  cases hd : decide ((st.pendOut ++ encBody st.params st.pendIn).drop availOut = []) <;>
    simp_all [-List.drop_eq_nil_iff, -List.take_eq_nil_iff]

/-- Unfolding one `inflate` call that runs into a dictionary demand. -/
theorem inflate_needDict_eq (st st2 : InfState) (input : List Byte)
    (availOut : Nat) (flush : Flush) (id : Nat)
    (hnd : st.phase ≠ .done) (hnc : st.phase ≠ .corrupt)
    (hph : parseHeader { st with bits := st.bits ++ bitsOfBytes input,
                                 totalIn := st.totalIn + input.length } = st2)
    (hb2 : st2.phase = .needDict id) :
    inflate st input availOut flush = ([], .needDict, st2) := by
  obtain ⟨fr, ph, bits, pend, adl, tin, tout, dt⟩ := st
  simp only at hnd hnc hph
  cases ph with
  | done => exact absurd rfl hnd
  | corrupt => exact absurd rfl hnc
  | header =>
      simp only [inflate]
      rw [hph]
      obtain ⟨fr2, ph2, bits2, pend2, adl2, tin2, tout2, dt2⟩ := st2
      simp only at hb2
      subst hb2
      rfl
  | needDict j =>
      simp only [inflate]
      rw [hph]
      obtain ⟨fr2, ph2, bits2, pend2, adl2, tin2, tout2, dt2⟩ := st2
      simp only at hb2
      subst hb2
      rfl
  | body =>
      simp only [inflate]
      rw [hph]
      obtain ⟨fr2, ph2, bits2, pend2, adl2, tin2, tout2, dt2⟩ := st2
      simp only at hb2
      subst hb2
      rfl

/-! ## Parameter-change schedules

The actions a caller may interleave while compressing (as
test_deflate_params / test_small_out3 of test.py do): feeding a chunk
under `NoFlush`, or changing `(level, strategy)` through the Parameter
Controller, each with its own output capacity. -/

/-- One scheduled action. -/
inductive DAct where
  | feed (c : List Byte) (n : Nat)
  | setp (level strategy : Int) (n : Nat)
  deriving DecidableEq, Repr

/-- Run a schedule of actions, collecting everything emitted. -/
def runActs (st : DefState) : List DAct → List Byte × DefState
  | [] => ([], st)
  | .feed c n :: rest =>
      let r := deflate st c n .noFlush
      let r2 := runActs r.2.2 rest
      (r.1 ++ r2.1, r2.2)
  | .setp l s n :: rest =>
      let r := deflateParams st l s n
      let r2 := runActs r.2.2 rest
      (r.1 ++ r2.1, r2.2)

/-- All input fed by a schedule. -/
def fedOf : List DAct → List Byte
  | [] => []
  | .feed c _ :: rest => c ++ fedOf rest
  | .setp _ _ _ :: rest => fedOf rest

/-- A schedule only requests recognized parameter combinations. -/
def actValid : DAct → Prop
  | .feed _ _ => True
  | .setp l s _ => DParams.valid ⟨l, s⟩

instance : DecidablePred actValid := fun a =>
  match a with
  | .feed _ _ => isTrue True.intro
  | .setp l s _ => inferInstanceAs (Decidable (DParams.valid ⟨l, s⟩))

/-- Tokens of a segmented body. -/
def segsToks (segs : List (DParams × List Byte)) : List Tok :=
  (segs.map fun s => tokenize s.1 s.2).flatten

theorem encToks_segsToks (segs : List (DParams × List Byte)) :
    encToks (segsToks segs) = (segs.map fun s => encBody s.1 s.2).flatten := by
  induction segs with
  | nil => rfl
  | cons s segs ih =>
      rw [show segsToks (s :: segs) = tokenize s.1 s.2 ++ segsToks segs from by
        simp [segsToks]]
      rw [encToks_append, ih]
      rfl

theorem outToks_segsToks (segs : List (DParams × List Byte)) :
    outToks (segsToks segs) = (segs.map Prod.snd).flatten := by
  induction segs with
  | nil => rfl
  | cons s segs ih =>
      rw [show segsToks (s :: segs) = tokenize s.1 s.2 ++ segsToks segs from by
        simp [segsToks]]
      rw [outToks_append, ih, outToks_tokenize]
      rfl

theorem plainTok_segsToks (segs : List (DParams × List Byte)) :
    ∀ t ∈ segsToks segs, plainTok t := by
  intro t ht
  rw [segsToks, List.mem_flatten] at ht
  obtain ⟨l, hl, htl⟩ := ht
  rw [List.mem_map] at hl
  obtain ⟨s, _, rfl⟩ := hl
  exact plainTok_tokenize s.1 s.2 t htl

/-- Invariant of an action schedule: the session stays Active, absorbs
exactly the fed input, and everything emitted plus what is still owed is
the owed prefix followed by the bodies of finitely many segments, whose
decoded outputs concatenated with the unprocessed tail are exactly the
fed input. -/
theorem runActs_spec (acts : List DAct) (st : DefState)
    (hE : st.ended = false) (hF : st.finished = false)
    (hsp : st.started = false → st.pendIn = [] ∧ st.pendOut = [])
    (hval : ∀ a ∈ acts, actValid a) :
    ∃ segs : List (DParams × List Byte),
      (runActs st acts).2.ended = false ∧
      (runActs st acts).2.finished = false ∧
      ((runActs st acts).2.started = false →
        (runActs st acts).2.pendIn = [] ∧ (runActs st acts).2.pendOut = []) ∧
      (runActs st acts).2.framing = st.framing ∧
      (runActs st acts).2.dict = st.dict ∧
      (runActs st acts).2.adler = adlerUpdate st.adler (fedOf acts) ∧
      (runActs st acts).2.totalIn = st.totalIn + (fedOf acts).length ∧
      (runActs st acts).1 ++ streamRest (runActs st acts).2
        = streamRest st ++ (segs.map fun s => encBody s.1 s.2).flatten ∧
      (segs.map Prod.snd).flatten ++ (runActs st acts).2.pendIn
        = st.pendIn ++ fedOf acts := by
  induction acts generalizing st with
  | nil =>
      refine ⟨[], hE, hF, hsp, rfl, rfl, ?_, ?_, ?_, ?_⟩ <;>
        simp [runActs, fedOf, adlerUpdate]
  | cons a rest ih =>
      cases a with
      | feed c n =>
          rw [show runActs st (.feed c n :: rest)
              = (let r := deflate st c n .noFlush
                 let r2 := runActs r.2.2 rest
                 (r.1 ++ r2.1, r2.2)) from rfl]
          rw [deflate_noFlush_eq st c n hE hF]
          simp only []
          obtain ⟨segs, g1, g2, g3, g4, g5, g6, g7, g8, g9⟩ := ih
            { st with started := true,
                      pendIn := st.pendIn ++ c,
                      adler := adlerUpdate st.adler c,
                      totalIn := st.totalIn + c.length,
                      pendOut := (streamRest st).drop n,
                      totalOut := st.totalOut + ((streamRest st).take n).length }
            hE hF (by intro h; exact absurd h (by simp))
            (fun x hx => hval x (List.mem_cons_of_mem _ hx))
          refine ⟨segs, g1, g2, g3, g4, g5, ?_, ?_, ?_, ?_⟩
          · rw [g6]
            simp only [fedOf]
            rw [adlerUpdate_append]
          · rw [g7]
            simp only [fedOf, List.length_append]
            omega
          · rw [List.append_assoc, g8]
            rw [show streamRest
                { st with started := true,
                          pendIn := st.pendIn ++ c,
                          adler := adlerUpdate st.adler c,
                          totalIn := st.totalIn + c.length,
                          pendOut := (streamRest st).drop n,
                          totalOut := st.totalOut
                            + ((streamRest st).take n).length } =
                (streamRest st).drop n from rfl]
            rw [← List.append_assoc, List.take_append_drop]
          · rw [g9]
            simp only [fedOf]
            rw [List.append_assoc]
      | setp l s n =>
          have hvp : DParams.valid ⟨l, s⟩ := hval _ (List.mem_cons_self _ _)
          rw [show runActs st (.setp l s n :: rest)
              = (let r := deflateParams st l s n
                 let r2 := runActs r.2.2 rest
                 (r.1 ++ r2.1, r2.2)) from rfl]
          by_cases hpe : (⟨l, s⟩ : DParams) = st.params
          · rw [show deflateParams st l s n = ([], .ok, st) from by
              unfold deflateParams
              rw [if_neg (by simp [hE]), if_neg (by simp [hvp]), if_pos hpe]]
            simp only []
            obtain ⟨segs, g1, g2, g3, g4, g5, g6, g7, g8, g9⟩ := ih st hE hF hsp
              (fun x hx => hval x (List.mem_cons_of_mem _ hx))
            exact ⟨segs, g1, g2, g3, g4, g5, g6, g7, by simpa using g8, g9⟩
          · by_cases hbuf : st.pendIn = [] ∧ st.pendOut = []
            · rw [show deflateParams st l s n
                  = ([], .ok, { st with params := ⟨l, s⟩ }) from by
                unfold deflateParams
                simp [hE, hvp, hpe, hbuf]]
              simp only []
              obtain ⟨segs, g1, g2, g3, g4, g5, g6, g7, g8, g9⟩ := ih
                { st with params := ⟨l, s⟩ } hE hF (fun _ => hbuf)
                (fun x hx => hval x (List.mem_cons_of_mem _ hx))
              refine ⟨segs, g1, g2, g3, g4, g5, g6, g7, ?_, g9⟩
              rw [show streamRest { st with params := (⟨l, s⟩ : DParams) }
                  = streamRest st from by
                unfold streamRest DefState.header
                simp]
                at g8
              simpa using g8
            · have hstarted : st.started = true := by
                by_contra hcon
                exact hbuf (hsp (by simpa using hcon))
              rw [deflateParams_eq st l s n hE hvp hpe hbuf]
              simp only []
              obtain ⟨segs, g1, g2, g3, g4, g5, g6, g7, g8, g9⟩ := ih
                { st with pendIn := [],
                          pendOut := (st.pendOut
                            ++ encBody st.params st.pendIn).drop n,
                          totalOut := st.totalOut + ((st.pendOut
                            ++ encBody st.params st.pendIn).take n).length,
                          params := if (st.pendOut
                              ++ encBody st.params st.pendIn).drop n = []
                            then ⟨l, s⟩ else st.params }
                hE hF (by intro h; simp at h; rw [h] at hstarted; cases hstarted)
                (fun x hx => hval x (List.mem_cons_of_mem _ hx))
              refine ⟨(st.params, st.pendIn) :: segs, g1, g2, g3, g4, g5, g6,
                ?_, ?_, ?_⟩
              · rw [g7]
                simp [fedOf]
              · rw [List.append_assoc, g8]
                rw [show streamRest
                    { st with pendIn := [],
                              pendOut := (st.pendOut
                                ++ encBody st.params st.pendIn).drop n,
                              totalOut := st.totalOut + ((st.pendOut
                                ++ encBody st.params st.pendIn).take n).length,
                              params := if (st.pendOut
                                  ++ encBody st.params st.pendIn).drop n = []
                                then ⟨l, s⟩ else st.params }
                    = (st.pendOut ++ encBody st.params st.pendIn).drop n from by
                  unfold streamRest
                  simp [hstarted]]
                rw [← List.append_assoc, List.take_append_drop]
                rw [show streamRest st = st.pendOut from by
                  unfold streamRest
                  simp [hstarted]]
                simp [List.append_assoc]
              · rw [show ((st.params, st.pendIn) :: segs).map Prod.snd
                    = st.pendIn :: segs.map Prod.snd from rfl]
                rw [List.flatten_cons, List.append_assoc, g9]
                simp [fedOf]

/-- A `Block` flush turns the buffered input into body bytes closed by
a block terminator (spec 4.1 `Block`). -/
theorem deflate_block_eq (st : DefState) (n : Nat)
    (hE : st.ended = false) (hF : st.finished = false) :
    deflate st [] n .block =
      ((streamRest st ++ encBody st.params st.pendIn ++ encTok .eob).take n, .ok,
       { st with started := true, pendIn := [],
                 pendOut := (streamRest st ++ encBody st.params st.pendIn
                   ++ encTok .eob).drop n,
                 totalOut := st.totalOut + ((streamRest st
                   ++ encBody st.params st.pendIn ++ encTok .eob).take n).length }) := by
  unfold deflate streamRest
  cases hs : st.started <;>
    simp [hE, hF, hs, DefState.header, adlerUpdate]

/-- The decompressor's loop under a `Block` flush stops at a block
terminator and reports the boundary through `dataType`. -/
theorem infLoop_eob_block (fuel : Nat) (st : InfState) (room : Nat)
    (acc : List Byte) (R : List Bool)
    (hbits : st.bits = bitsOfBytes (encTok .eob) ++ R) :
    infLoop .block (fuel + 1) st room acc
      = ({ st with bits := R, dataType := 128 }, acc, .ok) := by
  obtain ⟨fr, ph, bits, pend, adl, tin, tout, dt⟩ := st
  simp only at hbits
  subst hbits
  rw [infLoop]
  simp only [decTok_encTok]
  rfl

/-! ## Claim theorems -/

/-- C1: for every byte sequence S and every valid configuration
(window_bits selecting zlib, raw or gzip framing; level; strategy),
compressing all of S through repeated step (deflate) calls ending with a
Finish flush and then decompressing the entire compressed stream with a
session initialized with the same window_bits yields exactly S, with the
decompressor reporting end-of-stream. -/
theorem c1_roundtrip (wb : Int) (fr : Framing) (hwb : framingOfWB wb = some fr)
    (p : DParams) (hp : p.valid)
    (cs : List (List Byte × Nat)) (S : List Byte)
    (hS : (cs.map Prod.fst).flatten = S)
    (outs : List Nat) (hpos : ∀ o ∈ outs, 1 ≤ o)
    (hlen : (compressFull fr p none S).length ≤ outs.length) :
    (finishDrain (feedChunks (deflateInit fr p) cs).2 outs).2.1 = .streamEnd ∧
    (inflate (inflateInit fr)
        ((feedChunks (deflateInit fr p) cs).1
          ++ (finishDrain (feedChunks (deflateInit fr p) cs).2 outs).1)
        S.length .noFlush).1 = S ∧
    (inflate (inflateInit fr)
        ((feedChunks (deflateInit fr p) cs).1
          ++ (finishDrain (feedChunks (deflateInit fr p) cs).2 outs).1)
        S.length .noFlush).2.1 = .streamEnd := by
  subst hS
  obtain ⟨hz, hsend⟩ := compress_run fr p cs outs hpos hlen
  refine ⟨hsend, ?_, ?_⟩ <;> rw [hz]
  · exact (inflate_compressFull fr p _).1
  · exact (inflate_compressFull fr p _).2

theorem c1_roundtrip_witness :
    framingOfWB 15 = some .zlib ∧
    DParams.valid ⟨-1, 0⟩ ∧
    (([([104, 101], 0), ([108], 5)] : List (List Byte × Nat)).map
      Prod.fst).flatten = ([104, 101, 108] : List Byte) ∧
    (∀ o ∈ List.replicate 16 1, 1 ≤ o) ∧
    (compressFull .zlib ⟨-1, 0⟩ none [104, 101, 108]).length
      ≤ (List.replicate 16 1).length ∧
    ((finishDrain (feedChunks (deflateInit .zlib ⟨-1, 0⟩)
        [([104, 101], 0), ([108], 5)]).2 (List.replicate 16 1)).2.1 = .streamEnd ∧
     (inflate (inflateInit .zlib)
        ((feedChunks (deflateInit .zlib ⟨-1, 0⟩) [([104, 101], 0), ([108], 5)]).1
          ++ (finishDrain (feedChunks (deflateInit .zlib ⟨-1, 0⟩)
                [([104, 101], 0), ([108], 5)]).2 (List.replicate 16 1)).1)
        ([104, 101, 108] : List Byte).length .noFlush).1 = [104, 101, 108] ∧
     (inflate (inflateInit .zlib)
        ((feedChunks (deflateInit .zlib ⟨-1, 0⟩) [([104, 101], 0), ([108], 5)]).1
          ++ (finishDrain (feedChunks (deflateInit .zlib ⟨-1, 0⟩)
                [([104, 101], 0), ([108], 5)]).2 (List.replicate 16 1)).1)
        ([104, 101, 108] : List Byte).length .noFlush).2.1 = .streamEnd) :=
  ⟨by decide, by decide, by decide, by decide, by decide,
   c1_roundtrip 15 .zlib (by decide) ⟨-1, 0⟩ (by decide)
     [([104, 101], 0), ([108], 5)] [104, 101, 108] (by decide)
     (List.replicate 16 1) (by decide) (by decide)⟩

/-- C2: for every compression session, any sequence of step (deflate)
calls in which each call supplies at least 1 byte of output space and
Finish is requested reaches Ended (Z_STREAM_END) after finitely many
calls — explicitly, within `(finFull st).length` calls — and once any
pending output byte exists, a single step with at least one byte of
output space emits at least one byte. -/
theorem c2_progress (st : DefState) (outs : List Nat)
    (hE : st.ended = false) (hF : st.finished = false)
    (hpos : ∀ o ∈ outs, 1 ≤ o) (hlen : (finFull st).length ≤ outs.length) :
    (finishDrain st outs).2.1 = .streamEnd ∧
    (∀ (st2 : DefState) (input : List Byte) (m : Nat) (flush : Flush),
      st2.ended = false → st2.pendOut ≠ [] → 1 ≤ m →
      (deflate st2 input m flush).1 ≠ []) :=
  ⟨(finishDrain_spec outs st hE hF hpos hlen).2.1,
   fun st2 input m flush a b c => deflate_progress st2 input m flush a b c⟩

theorem c2_progress_witness :
    ((deflateInit .zlib ⟨-1, 0⟩).ended = false ∧
     (deflateInit .zlib ⟨-1, 0⟩).finished = false ∧
     (∀ o ∈ List.replicate 7 1, 1 ≤ o) ∧
     (finFull (deflateInit .zlib ⟨-1, 0⟩)).length ≤ (List.replicate 7 1).length) ∧
    (finishDrain (deflateInit .zlib ⟨-1, 0⟩) (List.replicate 7 1)).2.1
      = .streamEnd :=
  ⟨⟨by decide, by decide, by decide, by decide⟩,
   (c2_progress (deflateInit .zlib ⟨-1, 0⟩) (List.replicate 7 1)
     (by decide) (by decide) (by decide) (by decide)).1⟩

/-- C4: for every byte sequence S, splitting S into arbitrary input
chunks fed across many step (deflate) calls with arbitrarily small
output buffers (including 1 byte) produces the same compressed byte
sequence as compressing all of S in a single unchunked call, provided
the same flush directive (Finish) is used at the end. -/
theorem c4_chunking_equivalence (wb : Int) (fr : Framing)
    (hwb : framingOfWB wb = some fr) (p : DParams) (hp : p.valid)
    (cs : List (List Byte × Nat)) (S : List Byte)
    (hS : (cs.map Prod.fst).flatten = S)
    (outs : List Nat) (hpos : ∀ o ∈ outs, 1 ≤ o)
    (hlen : (compressFull fr p none S).length ≤ outs.length)
    (n : Nat) (hn : (compressFull fr p none S).length ≤ n) :
    (feedChunks (deflateInit fr p) cs).1
      ++ (finishDrain (feedChunks (deflateInit fr p) cs).2 outs).1
      = (deflate (deflateInit fr p) S n .finish).1 := by
  subst hS
  rw [(compress_run fr p cs outs hpos hlen).1,
    (deflate_oneShot fr p _ n hn).1]

theorem c4_chunking_equivalence_witness :
    framingOfWB (-15) = some .raw ∧
    DParams.valid ⟨1, 0⟩ ∧
    (([([104], 1), ([], 1), ([101, 108, 108, 111], 2)] : List (List Byte × Nat)).map
      Prod.fst).flatten = ([104, 101, 108, 108, 111] : List Byte) ∧
    (compressFull .raw ⟨1, 0⟩ none [104, 101, 108, 108, 111]).length ≤ 40 ∧
    (feedChunks (deflateInit .raw ⟨1, 0⟩)
        [([104], 1), ([], 1), ([101, 108, 108, 111], 2)]).1
      ++ (finishDrain (feedChunks (deflateInit .raw ⟨1, 0⟩)
            [([104], 1), ([], 1), ([101, 108, 108, 111], 2)]).2
          (List.replicate 40 1)).1
      = (deflate (deflateInit .raw ⟨1, 0⟩) [104, 101, 108, 108, 111] 40 .finish).1 :=
  ⟨by decide, by decide, by decide, by decide,
   c4_chunking_equivalence (-15) .raw (by decide) ⟨1, 0⟩ (by decide)
     [([104], 1), ([], 1), ([101, 108, 108, 111], 2)] [104, 101, 108, 108, 111]
     (by decide) (List.replicate 40 1) (by decide) (by decide) 40 (by decide)⟩

/-- C10: for every compression session with no internally buffered data
and every input of n bytes, an output buffer of `deflateBound` bytes is
never the limiting factor: a single step with Finish consumes all input
and returns Ended, with the emitted stream within the bound and nothing
left pending. -/
theorem c10_deflate_bound (st : DefState) (input : List Byte) (n availOut : Nat)
    (hE : st.ended = false) (hF : st.finished = false)
    (hpi : st.pendIn = []) (hpo : st.pendOut = [])
    (hn : input.length = n) (hav : deflateBound st n ≤ availOut) :
    (deflate st input availOut .finish).2.1 = .streamEnd ∧
    (deflate st input availOut .finish).1.length ≤ deflateBound st n ∧
    (deflate st input availOut .finish).2.2.pendIn = [] ∧
    (deflate st input availOut .finish).2.2.pendOut = [] := by
  rw [deflate_absorb _ _ _ _ hE]
  rw [deflate_finish_eq { st with
      pendIn := st.pendIn ++ input,
      adler := adlerUpdate st.adler input,
      totalIn := st.totalIn + input.length } availOut hE hF]
  have hfl : (finFull { st with
      pendIn := st.pendIn ++ input,
      adler := adlerUpdate st.adler input,
      totalIn := st.totalIn + input.length }).length ≤ deflateBound st n := by
    unfold finFull streamRest deflateBound
    have h1 := length_encBody st.params (st.pendIn ++ input)
    have h2 := trailer_length_le st.framing
      (adlerUpdate st.adler input) (st.totalIn + input.length)
    simp only [hpi, hpo, List.nil_append, List.length_append, encTok,
      List.length_cons, List.length_nil]
    simp only [hpi, List.nil_append] at h1
    cases hs : st.started <;> simp only [if_true, if_false, Bool.false_eq_true,
      List.length_nil, List.nil_append, DefState.header] <;> omega
  have hd : (finFull { st with
      pendIn := st.pendIn ++ input,
      adler := adlerUpdate st.adler input,
      totalIn := st.totalIn + input.length }).drop availOut = [] :=
    List.drop_eq_nil_iff.mpr (by omega)
  rw [hd, if_pos rfl]
  refine ⟨rfl, ?_, rfl, rfl⟩
  calc (List.take availOut _).length ≤ _ := by
        rw [List.length_take]
        exact min_le_right _ _
    _ ≤ deflateBound st n := hfl

theorem c10_deflate_bound_witness :
    ((deflateInit .gzip ⟨9, 4⟩).ended = false ∧
     (deflateInit .gzip ⟨9, 4⟩).pendIn = [] ∧
     ([0, 0, 0, 0, 0] : List Byte).length = 5 ∧
     deflateBound (deflateInit .gzip ⟨9, 4⟩) 5 ≤ 26) ∧
    (deflate (deflateInit .gzip ⟨9, 4⟩) [0, 0, 0, 0, 0] 26 .finish).2.1
      = .streamEnd ∧
    (deflate (deflateInit .gzip ⟨9, 4⟩) [0, 0, 0, 0, 0] 26 .finish).2.2.pendOut
      = [] :=
  ⟨⟨by decide, by decide, by decide, by decide⟩,
   (c10_deflate_bound (deflateInit .gzip ⟨9, 4⟩) [0, 0, 0, 0, 0] 5 26
     (by decide) (by decide) (by decide) (by decide) (by decide) (by decide)).1,
   (c10_deflate_bound (deflateInit .gzip ⟨9, 4⟩) [0, 0, 0, 0, 0] 5 26
     (by decide) (by decide) (by decide) (by decide) (by decide) (by decide)).2.2.2⟩

/-- C5: invoking set_params (deflateParams) on an Active session with
buffered data and insufficient output space returns the exhaustion
signal (bufError, Z_BUF_ERROR) rather than a fatal error, leaves the
session usable with its parameters unchanged; invoking it again with the
same arguments and enough output space completes the pending flush
(the two calls together emit exactly the buffered stream) and then
applies the change. -/
theorem c5_params_reentrant (st : DefState) (level strategy : Int)
    (availOut availOut2 : Nat) (hE : st.ended = false)
    (hv : DParams.valid ⟨level, strategy⟩)
    (hne : (⟨level, strategy⟩ : DParams) ≠ st.params)
    (hbuf : ¬(st.pendIn = [] ∧ st.pendOut = []))
    (hsmall : availOut < (st.pendOut ++ encBody st.params st.pendIn).length)
    (hbig : (st.pendOut ++ encBody st.params st.pendIn).length - availOut
      ≤ availOut2) :
    (deflateParams st level strategy availOut).2.1 = .bufError ∧
    (deflateParams st level strategy availOut).2.2.ended = false ∧
    (deflateParams st level strategy availOut).2.2.params = st.params ∧
    (deflateParams (deflateParams st level strategy availOut).2.2
      level strategy availOut2).2.1 = .ok ∧
    (deflateParams (deflateParams st level strategy availOut).2.2
      level strategy availOut2).2.2.params = ⟨level, strategy⟩ ∧
    (deflateParams st level strategy availOut).1
      ++ (deflateParams (deflateParams st level strategy availOut).2.2
          level strategy availOut2).1
      = st.pendOut ++ encBody st.params st.pendIn ∧
    (deflateParams (deflateParams st level strategy availOut).2.2
      level strategy availOut2).2.2.pendOut = [] := by
  have hP : ¬ (st.pendOut ++ encBody st.params st.pendIn).drop availOut = [] := by
    intro h
    have := List.drop_eq_nil_iff.mp h
    omega
  rw [deflateParams_eq st level strategy availOut hE hv hne hbuf]
  simp only [if_neg hP]
  set P := st.pendOut ++ encBody st.params st.pendIn with hPdef
  have hstep2 := deflateParams_eq
    { st with pendIn := [], pendOut := P.drop availOut,
              totalOut := st.totalOut + (P.take availOut).length,
              params := st.params }
    level strategy availOut2 hE hv hne (by simp [hP])
  simp only [encBody_nil, List.append_nil] at hstep2
  have hd2 : (P.drop availOut).drop availOut2 = [] := by
    apply List.drop_eq_nil_iff.mpr
    rw [List.length_drop]
    omega
  rw [hstep2, hd2]
  refine ⟨trivial, hE, trivial, by simp, by simp, ?_, by simp⟩
  show List.take availOut P ++ List.take availOut2 (List.drop availOut P) = P
  have htk : List.take availOut2 (List.drop availOut P) = List.drop availOut P := by
    apply List.take_of_length_le
    rw [List.length_drop]
    omega
  rw [htk]
  exact List.take_append_drop availOut P

theorem c5_params_reentrant_witness :
    ((deflate (deflateInit .zlib ⟨-1, 0⟩) [1, 1, 1, 1, 1, 1] 0 .noFlush).2.2.ended
        = false ∧
     DParams.valid ⟨0, 0⟩ ∧
     (⟨0, 0⟩ : DParams)
       ≠ (deflate (deflateInit .zlib ⟨-1, 0⟩) [1, 1, 1, 1, 1, 1] 0 .noFlush).2.2.params ∧
     (1 : Nat) <
       ((deflate (deflateInit .zlib ⟨-1, 0⟩) [1, 1, 1, 1, 1, 1] 0 .noFlush).2.2.pendOut
         ++ encBody
             (deflate (deflateInit .zlib ⟨-1, 0⟩) [1, 1, 1, 1, 1, 1] 0 .noFlush).2.2.params
             (deflate (deflateInit .zlib ⟨-1, 0⟩) [1, 1, 1, 1, 1, 1] 0 .noFlush).2.2.pendIn).length) ∧
    (deflateParams
      (deflate (deflateInit .zlib ⟨-1, 0⟩) [1, 1, 1, 1, 1, 1] 0 .noFlush).2.2
      0 0 1).2.1 = .bufError ∧
    (deflateParams
      (deflateParams
        (deflate (deflateInit .zlib ⟨-1, 0⟩) [1, 1, 1, 1, 1, 1] 0 .noFlush).2.2
        0 0 1).2.2 0 0 4).2.1 = .ok := by
  have h := c5_params_reentrant
    (deflate (deflateInit .zlib ⟨-1, 0⟩) [1, 1, 1, 1, 1, 1] 0 .noFlush).2.2
    0 0 1 4 (by decide) (by decide) (by decide) (by decide) (by decide) (by decide)
  exact ⟨⟨by decide, by decide, by decide, by decide⟩, h.1, h.2.2.2.1⟩

/-- C6: decompressing a zlib-wrapped stream that was compressed with a
preset dictionary: the first inflate call over the header returns
NeedsDictionary (Z_NEED_DICT) with no output; supplying a dictionary
whose checksum matches the header's value succeeds and decompression
completes, reproducing the original data; supplying bytes whose checksum
does not match fails with a dictionary-mismatch error.  The compression
side records the dictionary before the first step and embeds its
checksum in the header. -/
theorem c6_preset_dictionary (p : DParams) (hp : p.valid) (S D Dbad : List Byte)
    (hmis : adler32 Dbad ≠ adler32 D) :
    (deflateSetDictionary (deflateInit .zlib p) D).1 = .ok ∧
    (deflate (deflateSetDictionary (deflateInit .zlib p) D).2 S
        (streamOf .zlib (some D) (encBody p S) S).length .finish).2.1
      = .streamEnd ∧
    (deflate (deflateSetDictionary (deflateInit .zlib p) D).2 S
        (streamOf .zlib (some D) (encBody p S) S).length .finish).1
      = streamOf .zlib (some D) (encBody p S) S ∧
    (inflate (inflateInit .zlib) (streamOf .zlib (some D) (encBody p S) S)
        S.length .noFlush).1 = [] ∧
    (inflate (inflateInit .zlib) (streamOf .zlib (some D) (encBody p S) S)
        S.length .noFlush).2.1 = .needDict ∧
    (inflateSetDictionary
        (inflate (inflateInit .zlib) (streamOf .zlib (some D) (encBody p S) S)
          S.length .noFlush).2.2 Dbad).1 = .dataError ∧
    (inflateSetDictionary
        (inflate (inflateInit .zlib) (streamOf .zlib (some D) (encBody p S) S)
          S.length .noFlush).2.2 D).1 = .ok ∧
    (inflate (inflateSetDictionary
        (inflate (inflateInit .zlib) (streamOf .zlib (some D) (encBody p S) S)
          S.length .noFlush).2.2 D).2 [] S.length .noFlush).1 = S ∧
    (inflate (inflateSetDictionary
        (inflate (inflateInit .zlib) (streamOf .zlib (some D) (encBody p S) S)
          S.length .noFlush).2.2 D).2 [] S.length .noFlush).2.1 = .streamEnd := by
  have hsd : deflateSetDictionary (deflateInit .zlib p) D
      = (.ok, { deflateInit .zlib p with dict := some D }) := rfl
  have hone : (deflate { deflateInit .zlib p with dict := some D } S
      (streamOf .zlib (some D) (encBody p S) S).length .finish)
      = (streamOf .zlib (some D) (encBody p S) S, .streamEnd,
         (deflate { deflateInit .zlib p with dict := some D } S
           (streamOf .zlib (some D) (encBody p S) S).length .finish).2.2) := by
    rw [deflate_absorb _ _ _ _ rfl]
    rw [deflate_finish_eq { deflateInit .zlib p with
        dict := some D,
        pendIn := (deflateInit .zlib p).pendIn ++ S,
        adler := adlerUpdate (deflateInit .zlib p).adler S,
        totalIn := (deflateInit .zlib p).totalIn + S.length }
      (streamOf .zlib (some D) (encBody p S) S).length rfl rfl]
    have hff : finFull { deflateInit .zlib p with
        dict := some D,
        pendIn := (deflateInit .zlib p).pendIn ++ S,
        adler := adlerUpdate (deflateInit .zlib p).adler S,
        totalIn := (deflateInit .zlib p).totalIn + S.length }
        = streamOf .zlib (some D) (encBody p S) S := by
      unfold finFull streamOf streamRest DefState.header deflateInit
      simp [adler32]
    have hdrop : (streamOf .zlib (some D) (encBody p S) S).drop
        (streamOf .zlib (some D) (encBody p S) S).length = [] :=
      List.drop_eq_nil_iff.mpr (le_refl _)
    have htake : (streamOf .zlib (some D) (encBody p S) S).take
        (streamOf .zlib (some D) (encBody p S) S).length
        = streamOf .zlib (some D) (encBody p S) S :=
      List.take_of_length_le (le_refl _)
    rw [hff, hdrop, if_pos rfl, htake]
  -- the inflate side
  have hb1 : ((inflateInit .zlib).bits
      ++ bitsOfBytes (streamOf .zlib (some D) (encBody p S) S))
      = bitsOfBytes (header .zlib (some D))
        ++ bitsOfBytes (encBody p S ++ encTok .eos
          ++ trailer .zlib (adler32 S) S.length) := by
    show ([] : List Bool) ++ _ = _
    rw [List.nil_append,
      show streamOf .zlib (some D) (encBody p S) S = header .zlib (some D)
        ++ (encBody p S ++ encTok .eos
          ++ trailer .zlib (adler32 S) S.length) from by
        unfold streamOf
        simp [List.append_assoc],
      bitsOfBytes_append]
  have h1 : inflate (inflateInit .zlib) (streamOf .zlib (some D) (encBody p S) S)
      S.length .noFlush
      = ([], .needDict,
         { inflateInit .zlib with
           phase := .needDict (adler32 D),
           bits := bitsOfBytes (encBody p S ++ encTok .eos
             ++ trailer .zlib (adler32 S) S.length),
           totalIn := (inflateInit .zlib).totalIn
             + (streamOf .zlib (some D) (encBody p S) S).length }) := by
    refine inflate_needDict_eq _ _ _ _ _ (adler32 D)
      (by simp [inflateInit]) (by simp [inflateInit]) ?_ rfl
    exact parseHeader_zlib_dict _ D
      (bitsOfBytes (encBody p S ++ encTok .eos
        ++ trailer .zlib (adler32 S) S.length)) rfl rfl hb1
  have hsd2ok : inflateSetDictionary
      { inflateInit .zlib with
        phase := .needDict (adler32 D),
        bits := bitsOfBytes (encBody p S ++ encTok .eos
          ++ trailer .zlib (adler32 S) S.length),
        totalIn := (inflateInit .zlib).totalIn
          + (streamOf .zlib (some D) (encBody p S) S).length } D
      = (.ok,
         { inflateInit .zlib with
           phase := .body,
           bits := bitsOfBytes (encBody p S ++ encTok .eos
             ++ trailer .zlib (adler32 S) S.length),
           totalIn := (inflateInit .zlib).totalIn
             + (streamOf .zlib (some D) (encBody p S) S).length }) := by
    unfold inflateSetDictionary
    simp
  have hsd2bad : (inflateSetDictionary
      { inflateInit .zlib with
        phase := .needDict (adler32 D),
        bits := bitsOfBytes (encBody p S ++ encTok .eos
          ++ trailer .zlib (adler32 S) S.length),
        totalIn := (inflateInit .zlib).totalIn
          + (streamOf .zlib (some D) (encBody p S) S).length } Dbad).1
      = .dataError := by
    unfold inflateSetDictionary
    simp [hmis]
  have hfuelT : (tokenize p S).length + 1 ≤
      (bitsOfBytes (encBody p S ++ encTok .eos
        ++ trailer .zlib (adler32 S) S.length) ++ bitsOfBytes ([] : List Byte)).length := by
    simp only [bitsOfBytes_nil, List.append_nil, bitsOfBytes_length]
    have h1 := length_le_encToks (tokenize p S)
    unfold encBody
    simp only [List.length_append, encTok, List.length_cons, List.length_nil]
    unfold encBody at h1
    omega
  have h2 : inflate
      { inflateInit .zlib with
        phase := .body,
        bits := bitsOfBytes (encBody p S ++ encTok .eos
          ++ trailer .zlib (adler32 S) S.length),
        totalIn := (inflateInit .zlib).totalIn
          + (streamOf .zlib (some D) (encBody p S) S).length } [] S.length .noFlush
      = (S, .streamEnd,
         (inflate
           { inflateInit .zlib with
             phase := .body,
             bits := bitsOfBytes (encBody p S ++ encTok .eos
               ++ trailer .zlib (adler32 S) S.length),
             totalIn := (inflateInit .zlib).totalIn
               + (streamOf .zlib (some D) (encBody p S) S).length }
           [] S.length .noFlush).2.2) := by
    have hr := infLoop_streamT .noFlush
      { inflateInit .zlib with
        phase := .body,
        bits := bitsOfBytes (encBody p S ++ encTok .eos
          ++ trailer .zlib (adler32 S) S.length) ++ bitsOfBytes ([] : List Byte),
        totalIn := (inflateInit .zlib).totalIn
          + (streamOf .zlib (some D) (encBody p S) S).length
          + ([] : List Byte).length }
      (tokenize p S) S S.length S.length
      ((bitsOfBytes (encBody p S ++ encTok .eos
        ++ trailer .zlib (adler32 S) S.length) ++ bitsOfBytes ([] : List Byte)).length)
      (plainTok_tokenize p S) (outToks_tokenize p S)
      rfl (by norm_num [inflateInit]) (by simp [inflateInit])
      (by simp [inflateInit, adler32, bitsOfBytes_nil, encBody]) hfuelT (le_refl _)
    have heq := inflate_eq_of
      { inflateInit .zlib with
        phase := .body,
        bits := bitsOfBytes (encBody p S ++ encTok .eos
          ++ trailer .zlib (adler32 S) S.length),
        totalIn := (inflateInit .zlib).totalIn
          + (streamOf .zlib (some D) (encBody p S) S).length }
      _ _ ([] : List Byte) S.length .noFlush S .streamEnd
      (by simp) (by simp) (parseHeader_body _ rfl) rfl rfl hr (by simp)
    rw [heq]
  rw [hsd]
  simp only []
  rw [hone]
  refine ⟨by trivial, by trivial, by trivial, ?_⟩
  rw [h1]
  simp only []
  rw [hsd2ok]
  refine ⟨by trivial, by trivial, hsd2bad, by trivial, ?_, ?_⟩ <;>
    simp only [] <;> rw [h2]

theorem c6_preset_dictionary_witness :
    DParams.valid ⟨6, 1⟩ ∧
    adler32 [9, 9] ≠ adler32 [1, 2, 3] ∧
    (inflate (inflateInit .zlib)
        (streamOf .zlib (some [1, 2, 3]) (encBody ⟨6, 1⟩ [104, 105]) [104, 105])
        2 .noFlush).2.1 = .needDict ∧
    (inflate (inflateSetDictionary
        (inflate (inflateInit .zlib)
          (streamOf .zlib (some [1, 2, 3]) (encBody ⟨6, 1⟩ [104, 105]) [104, 105])
          2 .noFlush).2.2 [1, 2, 3]).2 [] 2 .noFlush).1 = [104, 105] := by
  have h := c6_preset_dictionary ⟨6, 1⟩ (by decide) [104, 105] [1, 2, 3] [9, 9]
    (by decide)
  exact ⟨by decide, by decide, h.2.2.2.2.1,
    by
      have := h.2.2.2.2.2.2.2.1
      simpa using this⟩

/-- C3: compressing S while invoking set_params (deflateParams) at
arbitrary points between step calls — over any levels and recognized
strategies, including calls made while available input and output space
is limited — produces a compressed stream that decompresses to exactly
S with end-of-stream; the parameter changes never invalidate or
duplicate previously emitted bytes. -/
theorem c3_params_transparency (fr : Framing) (p0 : DParams)
    (acts : List DAct) (hval : ∀ a ∈ acts, actValid a)
    (outs : List Nat) (hpos : ∀ o ∈ outs, 1 ≤ o)
    (hlen : (finFull (runActs (deflateInit fr p0) acts).2).length ≤ outs.length) :
    (finishDrain (runActs (deflateInit fr p0) acts).2 outs).2.1 = .streamEnd ∧
    (inflate (inflateInit fr)
        ((runActs (deflateInit fr p0) acts).1
          ++ (finishDrain (runActs (deflateInit fr p0) acts).2 outs).1)
        (fedOf acts).length .noFlush).1 = fedOf acts ∧
    (inflate (inflateInit fr)
        ((runActs (deflateInit fr p0) acts).1
          ++ (finishDrain (runActs (deflateInit fr p0) acts).2 outs).1)
        (fedOf acts).length .noFlush).2.1 = .streamEnd := by
  obtain ⟨segs, g1, g2, g3, g4, g5, g6, g7, g8, g9⟩ :=
    runActs_spec acts (deflateInit fr p0) rfl rfl (fun _ => ⟨rfl, rfl⟩) hval
  obtain ⟨d1, d2, d3⟩ :=
    finishDrain_spec outs (runActs (deflateInit fr p0) acts).2 g1 g2 hpos hlen
  have hTS : outToks (segsToks (segs
      ++ [((runActs (deflateInit fr p0) acts).2.params,
           (runActs (deflateInit fr p0) acts).2.pendIn)])) = fedOf acts := by
    rw [outToks_segsToks]
    rw [List.map_append, List.flatten_append]
    simp only [List.map_cons, List.map_nil, List.flatten_cons, List.flatten_nil,
      List.append_nil]
    rw [g9]
    rfl
  have hplainTS : ∀ t ∈ segsToks (segs
      ++ [((runActs (deflateInit fr p0) acts).2.params,
           (runActs (deflateInit fr p0) acts).2.pendIn)]), plainTok t :=
    plainTok_segsToks _
  have hstream : (runActs (deflateInit fr p0) acts).1
      ++ (finishDrain (runActs (deflateInit fr p0) acts).2 outs).1
      = streamOf fr none
          (encToks (segsToks (segs
            ++ [((runActs (deflateInit fr p0) acts).2.params,
                 (runActs (deflateInit fr p0) acts).2.pendIn)])))
          (fedOf acts) := by
    rw [d1]
    unfold finFull streamOf
    rw [encToks_segsToks]
    rw [List.map_append, List.flatten_append]
    simp only [List.map_cons, List.map_nil, List.flatten_cons, List.flatten_nil,
      List.append_nil]
    rw [g4, g6, g7]
    rw [show (deflateInit fr p0).framing = fr from rfl,
      show (deflateInit fr p0).adler = 1 from rfl,
      show (deflateInit fr p0).totalIn = 0 from rfl]
    rw [show adlerUpdate 1 (fedOf acts) = adler32 (fedOf acts) from rfl,
      Nat.zero_add]
    have hg8 : (runActs (deflateInit fr p0) acts).1
        ++ streamRest (runActs (deflateInit fr p0) acts).2
        = header fr none ++ (segs.map fun s => encBody s.1 s.2).flatten := by
      rw [g8]
      rw [show streamRest (deflateInit fr p0) = header fr none from by
        unfold streamRest DefState.header deflateInit
        simp]
    have habc : ∀ (a r h f x : List Byte), a ++ r = h ++ f →
        a ++ (r ++ x) = h ++ (f ++ x) := by
      intro a r h f x hh
      rw [← List.append_assoc, hh, List.append_assoc]
    simp only [List.append_assoc]
    exact habc _ _ _ _ _ hg8
  rw [hstream]
  exact ⟨d2,
    (inflate_streamOf fr _ (fedOf acts) hplainTS hTS).1,
    (inflate_streamOf fr _ (fedOf acts) hplainTS hTS).2⟩

theorem c3_params_transparency_witness :
    (∀ a ∈ [DAct.feed [5, 5] 1, DAct.setp 0 0 2, DAct.feed [7] 1,
            DAct.setp 9 3 0, DAct.feed [] 1], actValid a) ∧
    (∀ o ∈ List.replicate 64 1, 1 ≤ o) ∧
    (finFull (runActs (deflateInit .zlib ⟨-1, 0⟩)
        [DAct.feed [5, 5] 1, DAct.setp 0 0 2, DAct.feed [7] 1,
         DAct.setp 9 3 0, DAct.feed [] 1]).2).length
      ≤ (List.replicate 64 1).length ∧
    (inflate (inflateInit .zlib)
        ((runActs (deflateInit .zlib ⟨-1, 0⟩)
            [DAct.feed [5, 5] 1, DAct.setp 0 0 2, DAct.feed [7] 1,
             DAct.setp 9 3 0, DAct.feed [] 1]).1
          ++ (finishDrain (runActs (deflateInit .zlib ⟨-1, 0⟩)
                [DAct.feed [5, 5] 1, DAct.setp 0 0 2, DAct.feed [7] 1,
                 DAct.setp 9 3 0, DAct.feed [] 1]).2 (List.replicate 64 1)).1)
        (fedOf [DAct.feed [5, 5] 1, DAct.setp 0 0 2, DAct.feed [7] 1,
                DAct.setp 9 3 0, DAct.feed [] 1]).length .noFlush).1
      = fedOf [DAct.feed [5, 5] 1, DAct.setp 0 0 2, DAct.feed [7] 1,
               DAct.setp 9 3 0, DAct.feed [] 1] :=
  ⟨by decide, by decide, by decide,
   (c3_params_transparency .zlib ⟨-1, 0⟩
     [DAct.feed [5, 5] 1, DAct.setp 0 0 2, DAct.feed [7] 1,
      DAct.setp 9 3 0, DAct.feed [] 1] (by decide)
     (List.replicate 64 1) (by decide) (by decide)).2.1⟩

/-- C7: for raw (headerless) framing, set_dictionary is valid at any
point while Active and dictionaries may be rotated: compressing with
dictionary D1, draining with Block flush to a block boundary, setting a
new dictionary D3 and finishing produces a stream that Block-flush
inflate calls decode in two pieces — the first call stops at the block
boundary reporting it via dataType flag bit 128 with total_out equal to
the first segment's length, a new dictionary is then accepted, and the
second call finishes — reproducing the concatenation of both plaintext
segments exactly, for all dictionary and buffer contents and sizes. -/
theorem c7_dictionary_rotation (p : DParams) (hp : p.valid)
    (D1 D3 buf2 buf4 : List Byte) :
    (deflateSetDictionary (deflateInit .raw p) D1).1 = .ok ∧
    (deflate (deflateSetDictionary (deflateInit .raw p) D1).2 buf2
        (encBody p buf2 ++ encTok .eob).length .block).1
      = encBody p buf2 ++ encTok .eob ∧
    (deflate (deflateSetDictionary (deflateInit .raw p) D1).2 buf2
        (encBody p buf2 ++ encTok .eob).length .block).2.1 = .ok ∧
    (deflateSetDictionary
        (deflate (deflateSetDictionary (deflateInit .raw p) D1).2 buf2
          (encBody p buf2 ++ encTok .eob).length .block).2.2 D3).1 = .ok ∧
    (deflate (deflateSetDictionary
        (deflate (deflateSetDictionary (deflateInit .raw p) D1).2 buf2
          (encBody p buf2 ++ encTok .eob).length .block).2.2 D3).2 buf4
        (encBody p buf4 ++ encTok .eos).length .finish).1
      = encBody p buf4 ++ encTok .eos ∧
    (deflate (deflateSetDictionary
        (deflate (deflateSetDictionary (deflateInit .raw p) D1).2 buf2
          (encBody p buf2 ++ encTok .eob).length .block).2.2 D3).2 buf4
        (encBody p buf4 ++ encTok .eos).length .finish).2.1 = .streamEnd ∧
    (inflateSetDictionary (inflateInit .raw) D1).1 = .ok ∧
    (inflate (inflateSetDictionary (inflateInit .raw) D1).2
        ((encBody p buf2 ++ encTok .eob) ++ (encBody p buf4 ++ encTok .eos))
        (buf2.length + buf4.length) .block).1 = buf2 ∧
    (inflate (inflateSetDictionary (inflateInit .raw) D1).2
        ((encBody p buf2 ++ encTok .eob) ++ (encBody p buf4 ++ encTok .eos))
        (buf2.length + buf4.length) .block).2.1 = .ok ∧
    (inflate (inflateSetDictionary (inflateInit .raw) D1).2
        ((encBody p buf2 ++ encTok .eob) ++ (encBody p buf4 ++ encTok .eos))
        (buf2.length + buf4.length) .block).2.2.dataType &&& 128 ≠ 0 ∧
    (inflate (inflateSetDictionary (inflateInit .raw) D1).2
        ((encBody p buf2 ++ encTok .eob) ++ (encBody p buf4 ++ encTok .eos))
        (buf2.length + buf4.length) .block).2.2.totalOut = buf2.length ∧
    (inflateSetDictionary
        (inflate (inflateSetDictionary (inflateInit .raw) D1).2
          ((encBody p buf2 ++ encTok .eob) ++ (encBody p buf4 ++ encTok .eos))
          (buf2.length + buf4.length) .block).2.2 D3).1 = .ok ∧
    (inflate (inflateSetDictionary
        (inflate (inflateSetDictionary (inflateInit .raw) D1).2
          ((encBody p buf2 ++ encTok .eob) ++ (encBody p buf4 ++ encTok .eos))
          (buf2.length + buf4.length) .block).2.2 D3).2 [] buf4.length .block).1
      = buf4 ∧
    (inflate (inflateSetDictionary
        (inflate (inflateSetDictionary (inflateInit .raw) D1).2
          ((encBody p buf2 ++ encTok .eob) ++ (encBody p buf4 ++ encTok .eos))
          (buf2.length + buf4.length) .block).2.2 D3).2 [] buf4.length .block).2.1
      = .streamEnd := by
  -- the state after deflateSetDictionary D1
  have hsd1 : deflateSetDictionary (deflateInit .raw p) D1
      = (.ok,
         (⟨.raw, p, some D1, false, [], [], 1, 0, 0, false, false⟩ : DefState)) :=
    rfl
  -- the Block-flush step emits the first segment and its terminator
  have h2 : deflate
      (⟨.raw, p, some D1, false, [], [], 1, 0, 0, false, false⟩ : DefState) buf2
      (encBody p buf2 ++ encTok .eob).length .block
      = (encBody p buf2 ++ encTok .eob, .ok,
         (⟨.raw, p, some D1, true, [], [],
           adlerUpdate 1 buf2, buf2.length,
           (encBody p buf2 ++ encTok .eob).length, false, false⟩ : DefState)) := by
    rw [deflate_absorb _ _ _ _ rfl]
    rw [deflate_block_eq _ _ (by rfl) (by rfl)]
    simp [streamRest, DefState.header, header, adlerUpdate,
      List.take_length, List.drop_length]
  have hsd3 : deflateSetDictionary
      (⟨.raw, p, some D1, true, [], [],
        adlerUpdate 1 buf2, buf2.length,
        (encBody p buf2 ++ encTok .eob).length, false, false⟩ : DefState) D3
      = (.ok,
         (⟨.raw, p, some D3, true, [], [],
           adlerUpdate 1 buf2, buf2.length,
           (encBody p buf2 ++ encTok .eob).length, false, false⟩ : DefState)) :=
    rfl
  -- the Finish step emits the second segment and the stream terminator
  have h4 : deflate
      (⟨.raw, p, some D3, true, [], [],
        adlerUpdate 1 buf2, buf2.length,
        (encBody p buf2 ++ encTok .eob).length, false, false⟩ : DefState) buf4
      (encBody p buf4 ++ encTok .eos).length .finish
      = (encBody p buf4 ++ encTok .eos, .streamEnd,
         (⟨.raw, p, some D3, true, [], [],
           adlerUpdate (adlerUpdate 1 buf2) buf4, buf2.length + buf4.length,
           (encBody p buf2 ++ encTok .eob).length
             + (encBody p buf4 ++ encTok .eos).length, true, true⟩ : DefState)) := by
    rw [deflate_absorb _ _ _ _ rfl]
    rw [deflate_finish_eq _ _ (by rfl) (by rfl)]
    rw [show finFull
        (⟨.raw, p, some D3, true, [] ++ buf4, [],
          adlerUpdate (adlerUpdate 1 buf2) buf4, buf2.length + buf4.length,
          (encBody p buf2 ++ encTok .eob).length, false, false⟩ : DefState)
        = encBody p buf4 ++ encTok .eos from by
      unfold finFull streamRest DefState.header trailer
      simp]
    rw [List.take_length, List.drop_length]
    simp
  rw [hsd1]
  simp only []
  rw [h2]
  simp only []
  rw [hsd3]
  simp only []
  rw [h4]
  refine ⟨by trivial, by trivial, by trivial, by trivial, by trivial, by trivial, ?_⟩
  -- inflate side
  have hsdi1 : inflateSetDictionary (inflateInit .raw) D1
      = (.ok, inflateInit .raw) := rfl
  rw [hsdi1]
  simp only []
  -- the first Block-flush inflate call stops at the boundary
  have hts2 : (tokenize p buf2).length + 1
      ≤ ((inflateInit .raw).bits ++ bitsOfBytes ((encBody p buf2 ++ encTok .eob)
        ++ (encBody p buf4 ++ encTok .eos))).length := by
    simp only [inflateInit, List.nil_append, bitsOfBytes_length]
    have h1 := length_le_encToks (tokenize p buf2)
    unfold encBody at h1
    simp only [List.length_append, encTok, List.length_cons, List.length_nil]
    unfold encBody
    omega
  have hr1 : infLoop .block
      ((inflateInit .raw).bits ++ bitsOfBytes ((encBody p buf2 ++ encTok .eob)
        ++ (encBody p buf4 ++ encTok .eos))).length
      { inflateInit .raw with
        bits := (inflateInit .raw).bits
          ++ bitsOfBytes ((encBody p buf2 ++ encTok .eob)
            ++ (encBody p buf4 ++ encTok .eos)),
        totalIn := (inflateInit .raw).totalIn
          + ((encBody p buf2 ++ encTok .eob)
            ++ (encBody p buf4 ++ encTok .eos)).length }
      (buf2.length + buf4.length) []
      = ((⟨.raw, .body, bitsOfBytes (encBody p buf4 ++ encTok .eos), [],
           adlerUpdate 1 buf2,
           ((encBody p buf2 ++ encTok .eob)
             ++ (encBody p buf4 ++ encTok .eos)).length,
           buf2.length, 128⟩ : InfState), buf2, .ok) := by
    rw [show ((inflateInit .raw).bits
        ++ bitsOfBytes ((encBody p buf2 ++ encTok .eob)
          ++ (encBody p buf4 ++ encTok .eos))).length
      = (tokenize p buf2).length
        + (((inflateInit .raw).bits
          ++ bitsOfBytes ((encBody p buf2 ++ encTok .eob)
            ++ (encBody p buf4 ++ encTok .eos))).length
          - (tokenize p buf2).length) from by omega]
    rw [infLoop_toks .block (tokenize p buf2) _ _ _ []
      (bitsOfBytes (encTok .eob) ++ bitsOfBytes (encBody p buf4 ++ encTok .eos))
      (plainTok_tokenize p buf2) rfl
      (by rw [outToks_tokenize]; omega)
      (by
        simp only [inflateInit, List.nil_append]
        rw [show (encBody p buf2 ++ encTok .eob)
            ++ (encBody p buf4 ++ encTok .eos)
          = encBody p buf2
            ++ (encTok .eob ++ (encBody p buf4 ++ encTok .eos)) from by
            simp [List.append_assoc]]
        rw [bitsOfBytes_append, bitsOfBytes_append]
        rfl)]
    rw [show ((inflateInit .raw).bits
        ++ bitsOfBytes ((encBody p buf2 ++ encTok .eob)
          ++ (encBody p buf4 ++ encTok .eos))).length - (tokenize p buf2).length
      = (((inflateInit .raw).bits
        ++ bitsOfBytes ((encBody p buf2 ++ encTok .eob)
          ++ (encBody p buf4 ++ encTok .eos))).length
          - (tokenize p buf2).length - 1) + 1 from by omega]
    rw [infLoop_eob_block _ _ _ _
      (bitsOfBytes (encBody p buf4 ++ encTok .eos)) rfl]
    rw [outToks_tokenize]
    simp only [inflateInit, List.nil_append]
    have harith : buf2.length + buf4.length - buf2.length = buf4.length := by
      omega
    simp [adlerUpdate]
  have hcall1 := inflate_eq_of (inflateInit .raw) _ _
    ((encBody p buf2 ++ encTok .eob) ++ (encBody p buf4 ++ encTok .eos))
    (buf2.length + buf4.length) .block buf2 .ok
    (by simp [inflateInit]) (by simp [inflateInit])
    (parseHeader_body _ rfl) rfl rfl hr1 (by simp)
  rw [hcall1]
  simp only []
  have hsdi3 : inflateSetDictionary
      (⟨.raw, .body, bitsOfBytes (encBody p buf4 ++ encTok .eos), [],
        adlerUpdate 1 buf2,
        ((encBody p buf2 ++ encTok .eob)
          ++ (encBody p buf4 ++ encTok .eos)).length,
        buf2.length, 128⟩ : InfState) D3
      = (.ok,
         (⟨.raw, .body, bitsOfBytes (encBody p buf4 ++ encTok .eos), [],
           adlerUpdate 1 buf2,
           ((encBody p buf2 ++ encTok .eob)
             ++ (encBody p buf4 ++ encTok .eos)).length,
           buf2.length, 128⟩ : InfState)) := rfl
  rw [hsdi3]
  simp only []
  -- the second Block-flush inflate call finishes
  have hfuel4 : (tokenize p buf4).length + 1
      ≤ (bitsOfBytes (encBody p buf4 ++ encTok .eos)
        ++ bitsOfBytes ([] : List Byte)).length := by
    simp only [bitsOfBytes_nil, List.append_nil, bitsOfBytes_length]
    have h1 := length_le_encToks (tokenize p buf4)
    unfold encBody at h1
    simp only [List.length_append, encTok, List.length_cons, List.length_nil]
    unfold encBody
    omega
  have hr2 := infLoop_streamT .block
    (⟨.raw, .body,
      bitsOfBytes (encBody p buf4 ++ encTok .eos) ++ bitsOfBytes ([] : List Byte),
      [], adlerUpdate 1 buf2,
      ((encBody p buf2 ++ encTok .eob)
        ++ (encBody p buf4 ++ encTok .eos)).length + ([] : List Byte).length,
      buf2.length, 128⟩ : InfState)
    (tokenize p buf4) buf4 (buf2.length + buf4.length) buf4.length
    (bitsOfBytes (encBody p buf4 ++ encTok .eos)
      ++ bitsOfBytes ([] : List Byte)).length
    (plainTok_tokenize p buf4) (outToks_tokenize p buf4)
    rfl (adlerUpdate_lt _ _ (by norm_num)) rfl
    (by simp [bitsOfBytes_nil, encBody, trailer]) hfuel4 (le_refl _)
  have hcall2 := inflate_eq_of
    (⟨.raw, .body, bitsOfBytes (encBody p buf4 ++ encTok .eos), [],
      adlerUpdate 1 buf2,
      ((encBody p buf2 ++ encTok .eob)
        ++ (encBody p buf4 ++ encTok .eos)).length,
      buf2.length, 128⟩ : InfState) _ _
    ([] : List Byte) buf4.length .block buf4 .streamEnd
    (by simp) (by simp) (parseHeader_body _ rfl) rfl rfl hr2 (by simp)
  rw [hcall2]
  exact ⟨by trivial, by trivial, by trivial, by simp, by trivial, by trivial, by trivial⟩

theorem c7_dictionary_rotation_witness :
    DParams.valid ⟨6, 0⟩ ∧
    (inflate (inflateSetDictionary (inflateInit .raw) [7, 7]).2
        ((encBody ⟨6, 0⟩ [10, 11] ++ encTok .eob)
          ++ (encBody ⟨6, 0⟩ [12] ++ encTok .eos))
        (List.length [10, 11] + List.length [12]) .block).1 = [10, 11] ∧
    (inflate (inflateSetDictionary (inflateInit .raw) [7, 7]).2
        ((encBody ⟨6, 0⟩ [10, 11] ++ encTok .eob)
          ++ (encBody ⟨6, 0⟩ [12] ++ encTok .eos))
        (List.length [10, 11] + List.length [12]) .block).2.2.dataType &&& 128
      ≠ 0 ∧
    (inflate (inflateSetDictionary
        (inflate (inflateSetDictionary (inflateInit .raw) [7, 7]).2
          ((encBody ⟨6, 0⟩ [10, 11] ++ encTok .eob)
            ++ (encBody ⟨6, 0⟩ [12] ++ encTok .eos))
          (List.length [10, 11] + List.length [12]) .block).2.2 [8, 8]).2
        [] (List.length [12]) .block).1 = [12] := by
  have h := c7_dictionary_rotation ⟨6, 0⟩ (by decide) [7, 7] [8, 8] [10, 11] [12]
  exact ⟨by decide, h.2.2.2.2.2.2.2.1, h.2.2.2.2.2.2.2.2.2.1,
    h.2.2.2.2.2.2.2.2.2.2.2.2.1⟩

/-! ## Bit-shifted streams and bit priming

`_shl` is translated from src/raw_zlib/test/test.py (the test suite is
the part of the repository under src/): it shifts a byte buffer left by
`bits` bits in the LSB-first bit-stream order, returning the shifted-out
value and the whole-byte offset, and is used together with
`inflatePrime` to feed a compressed stream at an arbitrary bit
position. -/

/-- A byte from a machine value, reduced mod 256 (the Python code's
in-place byte store). -/
def byteOf (n : Nat) : Byte := ⟨n % 256, Nat.mod_lt _ (by norm_num)⟩

theorem byteOf_val (n : Nat) : (byteOf n).val = n % 256 := rfl

/-- Translated from `_shl` in src/raw_zlib/test/test.py: the leading
`while bits >= 8` loop, packing whole input bytes into `value`.  The
fuel bounds the iteration count (each pass consumes 8 of `bits`, so
`bits` itself is more than enough); it returns the final `buf_pos`,
`bits`, `value` and `value_bits`. -/
def shlWhole (buf : List Byte) : Nat → Nat → Nat → Nat → Nat → Nat × Nat × Nat × Nat
  | 0, pos, bits, value, valueBits => (pos, bits, value, valueBits)
  | fuel + 1, pos, bits, value, valueBits =>
      if 8 ≤ bits then
        shlWhole buf fuel (pos + 1) (bits - 8)
          (value ||| ((buf.getD pos 0).val <<< valueBits)) (valueBits + 8)
      else (pos, bits, value, valueBits)

/-- Translated from `_shl` in src/raw_zlib/test/test.py: the
`for i in range(len(buf) - 1, buf_pos - 1, -1)` loop over the suffix
from `buf_pos`, right to left, shifting each byte down by `bits` and
filling its top bits with the carry out of the byte to its right;
returns the rewritten suffix and the final carry (the low `bits` bits
of the byte at `buf_pos`). -/
def shlTail (bits : Nat) : List Byte → List Byte × Nat
  | [] => ([], 0)
  | x :: rest =>
      let r := shlTail bits rest
      (byteOf ((x.val >>> bits) ||| (r.2 <<< (8 - bits))) :: r.1,
       x.val &&& (2 ^ bits - 1))

/-- Translated from `_shl(buf, bits)` in src/raw_zlib/test/test.py:
shift the buffer left by `bits` bits, returning the shifted-out
`value`, the whole-byte offset `buf_pos`, and the rewritten buffer. -/
def shl (buf : List Byte) (bits : Nat) : Nat × Nat × List Byte :=
  let w := shlWhole buf bits 0 bits 0 0
  let t := shlTail w.2.1 (buf.drop w.1)
  (w.2.2.1 ||| (t.2 <<< w.2.2.2), w.1, buf.take w.1 ++ t.1)

theorem testBit_natOfBits (L : List Bool) (i : Nat) :
    (natOfBits L).testBit i = L.getD i false := by
  induction L generalizing i with
  | nil => simp [natOfBits]
  | cons b L ih =>
      cases i with
      | zero =>
          cases b <;> simp [natOfBits] <;> omega
      | succ i =>
          rw [Nat.testBit_add_one]
          have hd : natOfBits (b :: L) / 2 = natOfBits L := by
            cases b <;> simp [natOfBits] <;> omega
          rw [hd]
          simp [ih]

theorem natOfBits_replicate_false (n : Nat) :
    natOfBits (List.replicate n false) = 0 := by
  induction n with
  | zero => rfl
  | succ n ih => simp [List.replicate_succ, natOfBits, ih]

theorem natOfBits_append (A C : List Bool) :
    natOfBits (A ++ C) = natOfBits A + 2 ^ A.length * natOfBits C := by
  induction A with
  | nil => simp [natOfBits]
  | cons b A ih =>
      rw [List.cons_append]
      rw [show natOfBits (b :: (A ++ C)) = (cond b 1 0) + 2 * natOfBits (A ++ C)
        from rfl]
      rw [ih, show natOfBits (b :: A) = (cond b 1 0) + 2 * natOfBits A from rfl,
        List.length_cons]
      simp [Nat.pow_succ]
      ring

theorem lowBits_natOfBits (L : List Bool) : lowBits L.length (natOfBits L) = L := by
  apply List.ext_getElem
  · simp [lowBits]
  · intro i h1 h2
    simp only [lowBits, List.getElem_map, List.getElem_range, testBit_natOfBits]
    rw [List.getD_eq_getElem?_getD, List.getElem?_eq_getElem h2]
    rfl

theorem bitsOfBytes_drop (n : Nat) (l : List Byte) :
    bitsOfBytes (l.drop n) = (bitsOfBytes l).drop (8 * n) := by
  induction n generalizing l with
  | zero => simp
  | succ n ih =>
      cases l with
      | nil => simp [bitsOfBytes]
      | cons b l =>
          rw [List.drop_succ_cons, ih, bitsOfBytes_cons]
          rw [show 8 * (n + 1) = 8 + 8 * n from by ring]
          rw [← List.drop_drop]
          have h8 : List.drop 8 (bitsOfByte b ++ bitsOfBytes l) = bitsOfBytes l := by
            rw [show (8 : Nat) = (bitsOfByte b).length from rfl, List.drop_left]
          rw [h8]

theorem testBit_byte_high (x : Byte) (k : Nat) (h : 8 ≤ k) :
    x.val.testBit k = false :=
  Nat.testBit_lt_two_pow
    (lt_of_lt_of_le x.isLt (le_trans (by norm_num) (Nat.pow_le_pow_right (by norm_num) h)))

theorem or_shiftLeft_eq_add (k a c : Nat) (ha : a < 2 ^ k) :
    a ||| (c <<< k) = a + 2 ^ k * c := by
  calc a ||| (c <<< k) = (2 ^ k * c) ||| a := by
        rw [Nat.shiftLeft_eq, Nat.mul_comm, Nat.or_comm]
    _ = 2 ^ k * c + a := (Nat.mul_add_lt_is_or ha c).symm
    _ = a + 2 ^ k * c := Nat.add_comm _ _

theorem bitsOfByte_shl (bits : Nat) (hb : bits < 8) (x : Byte) (c : Nat)
    (hc : c < 2 ^ bits) :
    bitsOfByte (byteOf ((x.val >>> bits) ||| (c <<< (8 - bits))))
      = (bitsOfByte x).drop bits ++ lowBits bits c := by
  have hsr : x.val >>> bits < 2 ^ 8 := by
    rw [Nat.shiftRight_eq_div_pow]
    exact lt_of_le_of_lt (Nat.div_le_self _ _) x.isLt
  have hsl : c <<< (8 - bits) < 2 ^ 8 := by
    rw [Nat.shiftLeft_eq]
    have h1 : c * 2 ^ (8 - bits) < 2 ^ bits * 2 ^ (8 - bits) :=
      Nat.mul_lt_mul_of_pos_right hc (Nat.two_pow_pos _)
    rw [← Nat.pow_add] at h1
    have h2 : bits + (8 - bits) = 8 := by omega
    rw [h2] at h1
    exact h1
  have hmod : (x.val >>> bits ||| c <<< (8 - bits)) % 256
      = x.val >>> bits ||| c <<< (8 - bits) :=
    Nat.mod_eq_of_lt (Nat.or_lt_two_pow hsr hsl)
  interval_cases bits
  · have hc0 : c = 0 := by simpa using hc
    subst hc0
    simp [byteOf_val, bitsOfByte, lowBits, Nat.mod_eq_of_lt x.isLt,
      -Nat.testBit_zero]
  · simp [byteOf_val, bitsOfByte, lowBits, List.range_succ, hmod,
      testBit_byte_high, -Nat.testBit_zero]
  · simp [byteOf_val, bitsOfByte, lowBits, List.range_succ, hmod,
      testBit_byte_high, -Nat.testBit_zero]
  · simp [byteOf_val, bitsOfByte, lowBits, List.range_succ, hmod,
      testBit_byte_high, -Nat.testBit_zero]
  · simp [byteOf_val, bitsOfByte, lowBits, List.range_succ, hmod,
      testBit_byte_high, -Nat.testBit_zero]
  · simp [byteOf_val, bitsOfByte, lowBits, List.range_succ, hmod,
      testBit_byte_high, -Nat.testBit_zero]
  · simp [byteOf_val, bitsOfByte, lowBits, List.range_succ, hmod,
      testBit_byte_high, -Nat.testBit_zero]
  · simp [byteOf_val, bitsOfByte, lowBits, List.range_succ, hmod,
      testBit_byte_high, -Nat.testBit_zero]

set_option maxRecDepth 8192 in
theorem and_mask_byte (bits : Nat) (hb : bits < 8) (x : Byte) :
    x.val &&& (2 ^ bits - 1) = natOfBits ((bitsOfByte x).take bits) := by
  interval_cases bits <;> revert x <;> decide

theorem shlWhole_step (buf : List Byte) (fuel pos bits value valueBits : Nat)
    (h : 8 ≤ bits) :
    shlWhole buf (fuel + 1) pos bits value valueBits
      = shlWhole buf fuel (pos + 1) (bits - 8)
          (value ||| ((buf.getD pos 0).val <<< valueBits)) (valueBits + 8) := by
  rw [shlWhole, if_pos h]

theorem shlWhole_stop (buf : List Byte) (fuel pos bits value valueBits : Nat)
    (h : ¬ 8 ≤ bits) :
    shlWhole buf (fuel + 1) pos bits value valueBits
      = (pos, bits, value, valueBits) := by
  rw [shlWhole, if_neg h]

theorem shlWhole_lt8 (buf : List Byte) (b : Nat) (hb : b < 8) :
    shlWhole buf b 0 b 0 0 = (0, b, 0, 0) := by
  cases b with
  | zero => rfl
  | succ n =>
      have h : ¬ 8 ≤ n + 1 := by omega
      exact shlWhole_stop buf n 0 (n + 1) 0 0 h

theorem shlWhole_lt16 (buf : List Byte) (b : Nat) (h8 : 8 ≤ b) (hb : b < 16) :
    shlWhole buf b 0 b 0 0 = (1, b - 8, (buf.getD 0 0).val, 8) := by
  obtain ⟨k, rfl⟩ : ∃ k, b = k + 8 := ⟨b - 8, by omega⟩
  rw [show k + 8 = (k + 7) + 1 from rfl]
  rw [shlWhole_step buf (k + 7) 0 (k + 7 + 1) 0 0 (by omega)]
  rw [show k + 7 + 1 - 8 = k from by omega]
  rw [show k + 7 = (k + 6) + 1 from rfl]
  rw [shlWhole_stop buf (k + 6) (0 + 1) k (0 ||| (buf.getD 0 0).val <<< 0)
    (0 + 8) (by omega)]
  simp [Nat.shiftLeft_zero, Nat.zero_or]

theorem shlWhole_16 (buf : List Byte) :
    shlWhole buf 16 0 16 0 0
      = (2, 0, (buf.getD 0 0).val ||| ((buf.getD 1 0).val <<< 8), 16) := by
  rw [show (16 : Nat) = 15 + 1 from rfl]
  rw [shlWhole_step buf 15 0 (15 + 1) 0 0 (by omega)]
  rw [show 15 + 1 - 8 = 7 + 1 from rfl]
  rw [show (15 : Nat) = 14 + 1 from rfl]
  rw [shlWhole_step buf 14 (0 + 1) (7 + 1) (0 ||| (buf.getD 0 0).val <<< 0)
    (0 + 8) (by omega)]
  rw [show 7 + 1 - 8 = 0 from rfl]
  rw [show (14 : Nat) = 13 + 1 from rfl]
  rw [shlWhole_stop buf 13 (0 + 1 + 1) 0 _ (0 + 8 + 8) (by omega)]
  simp [Nat.shiftLeft_zero]


theorem shlTail_spec (bits : Nat) (hb : bits < 8) (S : List Byte) :
    bitsOfBytes (shlTail bits S).1
        = (bitsOfBytes S ++ List.replicate bits false).drop bits
      ∧ (shlTail bits S).2
        = natOfBits ((bitsOfBytes S ++ List.replicate bits false).take bits) := by
  induction S with
  | nil =>
      constructor
      · simp [shlTail, bitsOfBytes, List.drop_eq_nil_of_le]
      · simp [shlTail, bitsOfBytes, List.take_replicate,
          natOfBits_replicate_false]
  | cons x rest ih =>
      obtain ⟨ih1, ih2⟩ := ih
      have hc : (shlTail bits rest).2 < 2 ^ bits := by
        rw [ih2]
        calc natOfBits ((bitsOfBytes rest ++ List.replicate bits false).take bits)
            < 2 ^ ((bitsOfBytes rest ++ List.replicate bits false).take bits).length :=
              natOfBits_lt _
          _ ≤ 2 ^ bits := Nat.pow_le_pow_right (by norm_num)
              (by simp [List.length_take])
      have hlen : ((bitsOfBytes rest ++ List.replicate bits false).take bits).length
          = bits := by
        simp only [List.length_take, List.length_append, List.length_replicate]
        omega
      have hlow : lowBits bits (shlTail bits rest).2
          = (bitsOfBytes rest ++ List.replicate bits false).take bits := by
        have h := lowBits_natOfBits
          ((bitsOfBytes rest ++ List.replicate bits false).take bits)
        rw [hlen] at h
        rw [ih2]
        exact h
      constructor
      · show bitsOfBytes (byteOf _ :: (shlTail bits rest).1) = _
        rw [bitsOfBytes_cons, bitsOfByte_shl bits hb x _ hc, ih1, hlow]
        rw [List.append_assoc, List.take_append_drop]
        rw [bitsOfBytes_cons, List.append_assoc,
          List.drop_append_of_le_length (by simp [bitsOfByte]; omega)]
      · show x.val &&& (2 ^ bits - 1) = _
        rw [and_mask_byte bits hb x]
        rw [bitsOfBytes_cons, List.append_assoc,
          List.take_append_of_le_length (by simp [bitsOfByte]; omega)]

theorem shl_spec (B : List Byte) (b : Nat) (hb : b < 17) (hB : 3 ≤ B.length) :
    lowBits b (shl B b).1 ++ bitsOfBytes ((shl B b).2.2.drop (shl B b).2.1)
      = bitsOfBytes B ++ List.replicate (b % 8) false := by
  rcases Nat.lt_or_ge b 8 with h8 | h8
  · have hw := shlWhole_lt8 B b h8
    obtain ⟨ht1, ht2⟩ := shlTail_spec b h8 B
    simp only [shl, hw, List.drop_zero, List.take_zero, List.nil_append,
      Nat.zero_or, Nat.shiftLeft_zero]
    rw [ht2, ht1]
    have hlen : ((bitsOfBytes B ++ List.replicate b false).take b).length = b := by
      simp only [List.length_take, List.length_append, List.length_replicate]
      omega
    have hlow := lowBits_natOfBits ((bitsOfBytes B ++ List.replicate b false).take b)
    rw [hlen] at hlow
    rw [hlow, List.take_append_drop, Nat.mod_eq_of_lt h8]
  · rcases Nat.lt_or_ge b 16 with h16 | h16
    · cases B with
      | nil => simp at hB
      | cons B0 B' =>
          have hw := shlWhole_lt16 (B0 :: B') b h8 h16
          have hb8 : b - 8 < 8 := by omega
          obtain ⟨ht1, ht2⟩ := shlTail_spec (b - 8) hb8 B'
          simp only [shl, hw, List.drop_succ_cons, List.drop_zero,
            List.take_succ_cons, List.take_zero, List.getD_cons_zero,
            List.cons_append, List.nil_append]
          rw [ht2, ht1]
          have hc : natOfBits ((bitsOfBytes B' ++ List.replicate (b - 8) false).take (b - 8))
              < 2 ^ (b - 8) := by
            calc natOfBits ((bitsOfBytes B' ++ List.replicate (b - 8) false).take (b - 8))
                < 2 ^ ((bitsOfBytes B' ++ List.replicate (b - 8) false).take (b - 8)).length :=
                  natOfBits_lt _
              _ ≤ 2 ^ (b - 8) := Nat.pow_le_pow_right (by norm_num)
                  (by simp [List.length_take])
          have hadd := or_shiftLeft_eq_add 8 B0.val
            (natOfBits ((bitsOfBytes B' ++ List.replicate (b - 8) false).take (b - 8)))
            (by simpa using B0.isLt)
          have hval : B0.val + 2 ^ 8 *
              natOfBits ((bitsOfBytes B' ++ List.replicate (b - 8) false).take (b - 8))
              = natOfBits (bitsOfByte B0
                  ++ (bitsOfBytes B' ++ List.replicate (b - 8) false).take (b - 8)) := by
            rw [natOfBits_append, natOfBits_bitsOfByte]
            rfl
          have hlen2 : (bitsOfByte B0
              ++ (bitsOfBytes B' ++ List.replicate (b - 8) false).take (b - 8)).length
              = b := by
            simp only [List.length_append, List.length_take, List.length_replicate,
              bitsOfByte, List.length_cons, List.length_nil]
            omega
          have hlow := lowBits_natOfBits (bitsOfByte B0
            ++ (bitsOfBytes B' ++ List.replicate (b - 8) false).take (b - 8))
          rw [hlen2] at hlow
          rw [hadd, hval, hlow]
          rw [List.append_assoc, List.take_append_drop]
          rw [bitsOfBytes_cons, List.append_assoc,
            show b % 8 = b - 8 from by omega]
    · have hbe : b = 16 := by omega
      subst hbe
      cases B with
      | nil => simp at hB
      | cons B0 B' =>
          cases B' with
          | nil => simp at hB
          | cons B1 B'' =>
              have hw := shlWhole_16 (B0 :: B1 :: B'')
              obtain ⟨ht1, ht2⟩ := shlTail_spec 0 (by omega) B''
              simp only [shl, hw, List.drop_succ_cons, List.drop_zero,
                List.take_succ_cons, List.take_zero, List.getD_cons_zero,
                List.getD_cons_succ, List.cons_append, List.nil_append]
              have ht2' : (shlTail 0 B'').2 = 0 := by
                rw [ht2]
                simp [natOfBits]
              have ht1' : bitsOfBytes (shlTail 0 B'').1 = bitsOfBytes B'' := by
                rw [ht1]
                simp
              rw [ht2', ht1']
              simp only [Nat.zero_shiftLeft, Nat.or_zero]
              have hadd := or_shiftLeft_eq_add 8 B0.val B1.val
                (by simpa using B0.isLt)
              have hval : B0.val + 2 ^ 8 * B1.val
                  = natOfBits (bitsOfByte B0 ++ bitsOfByte B1) := by
                rw [natOfBits_append]
                rw [natOfBits_bitsOfByte B0, natOfBits_bitsOfByte B1]
                rw [show (bitsOfByte B0).length = 8 from rfl]
              have hlen2 : (bitsOfByte B0 ++ bitsOfByte B1).length = 16 := rfl
              have hlow := lowBits_natOfBits (bitsOfByte B0 ++ bitsOfByte B1)
              rw [hlen2] at hlow
              rw [hadd, hval, hlow]
              simp [bitsOfBytes_cons, List.append_assoc]


theorem tokenizeAux_ne_nil (l : List Byte) (b n : Byte) :
    tokenizeAux l b n ≠ [] := by
  induction l generalizing b n with
  | nil => simp [tokenizeAux]
  | cons c l ih =>
      rw [tokenizeAux]
      split
      · exact ih _ _
      · simp

theorem tokenize_ne_nil (p : DParams) (s : Byte) (S : List Byte) :
    tokenize p (s :: S) ≠ [] := by
  unfold tokenize
  split
  · simp only [tokenizeRuns]
    exact tokenizeAux_ne_nil S s 1
  · simp

theorem two_le_encBody (p : DParams) (s : Byte) (S : List Byte) :
    2 ≤ (encBody p (s :: S)).length := by
  obtain ⟨t, ts, hts⟩ := List.exists_cons_of_ne_nil (tokenize_ne_nil p s S)
  have hpl : plainTok t := plainTok_tokenize p (s :: S) t
    (by rw [hts]; exact List.mem_cons_self _ _)
  unfold encBody
  rw [hts, show encToks (t :: ts) = encTok t ++ encToks ts from rfl]
  have h2 : 2 ≤ (encTok t).length := by
    cases t with
    | lit b => simp [encTok]
    | run b n => simp [encTok]
    | eob => exact absurd rfl hpl.1
    | eos => exact absurd rfl hpl.2
  simp only [List.length_append]
  omega

/-- Decoding a complete raw-framed body + terminator followed by
arbitrary leftover bits: raw framing has no trailer, so the loop simply
stops at the stream terminator, leaving the extra bits unread. -/
theorem infLoop_streamRawT (flush : Flush) (st : InfState) (ts : List Tok)
    (S : List Byte) (room fuel : Nat) (R : List Bool)
    (hfr : st.framing = .raw)
    (hplain : ∀ t ∈ ts, plainTok t) (hout : outToks ts = S)
    (hpend : st.pend = [])
    (hbits : st.bits = bitsOfBytes (encToks ts ++ encTok .eos) ++ R)
    (hfuel : ts.length + 1 ≤ fuel)
    (hroom : S.length ≤ room) :
    infLoop flush fuel st room [] =
      ({ st with bits := R, phase := .done,
                 adler := adlerUpdate st.adler S,
                 totalOut := st.totalOut + S.length, pend := [] }, S, .streamEnd) := by
  obtain ⟨fr, ph, bits, pend, adl, tin, tout, dt⟩ := st
  simp only at hfr hpend hbits
  subst hfr
  subst hpend
  subst hbits
  rw [show fuel = ts.length + (fuel - ts.length) from by omega]
  rw [infLoop_toks flush ts _ (fuel - ts.length) room []
    (bitsOfBytes (encTok .eos) ++ R)
    hplain rfl (by rw [hout]; exact hroom)
    (by simp [bitsOfBytes_append, List.append_assoc])]
  rw [hout, List.nil_append]
  rw [show fuel - ts.length = (fuel - ts.length - 1) + 1 from by omega]
  rw [infLoop]
  simp only [decTok_encTok]
  simp [checkTrailer]

/-- C8: shifting a raw-framed compressed stream left by `b` bits
(0 ≤ b < 17) with the test suite's `_shl` and priming the decompressor
with the `b` shifted-out bits via `inflatePrime` before feeding the
shifted remainder reproduces the original plaintext exactly, ending with
`streamEnd`; and `inflatePrime(0, 0)` is a no-op on any live session, so
decompression proceeds exactly as if prime had never been called. -/
theorem c8_inflate_prime (p : DParams) (b : Nat) (hb : b < 17)
    (s0 : Byte) (S : List Byte) :
    ((inflatePrime (inflateInit .raw) b
        (shl (compressFull .raw p none (s0 :: S)) b).1).1 = .ok ∧
     (inflate (inflatePrime (inflateInit .raw) b
          (shl (compressFull .raw p none (s0 :: S)) b).1).2
        ((shl (compressFull .raw p none (s0 :: S)) b).2.2.drop
          (shl (compressFull .raw p none (s0 :: S)) b).2.1)
        (s0 :: S).length .noFlush).1 = s0 :: S ∧
     (inflate (inflatePrime (inflateInit .raw) b
          (shl (compressFull .raw p none (s0 :: S)) b).1).2
        ((shl (compressFull .raw p none (s0 :: S)) b).2.2.drop
          (shl (compressFull .raw p none (s0 :: S)) b).2.1)
        (s0 :: S).length .noFlush).2.1 = .streamEnd) ∧
    (∀ st : InfState, st.phase ≠ .done → st.phase ≠ .corrupt →
       inflatePrime st 0 0 = (.ok, st)) := by
  constructor
  · have hBlen : 3 ≤ (compressFull .raw p none (s0 :: S)).length := by
      have h2 := two_le_encBody p s0 S
      simp only [compressFull, header, trailer, encTok, List.nil_append,
        List.length_append, List.length_cons, List.length_nil]
      omega
    have hshl := shl_spec (compressFull .raw p none (s0 :: S)) b hb hBlen
    have hprime : inflatePrime (inflateInit .raw) b
        (shl (compressFull .raw p none (s0 :: S)) b).1
        = (.ok, (⟨.raw, .body,
            lowBits b (shl (compressFull .raw p none (s0 :: S)) b).1,
            [], 1, 0, 0, 0⟩ : InfState)) := by
      simp [inflatePrime, inflateInit]
    have hBraw : compressFull .raw p none (s0 :: S)
        = encToks (tokenize p (s0 :: S)) ++ encTok .eos := by
      simp [compressFull, header, trailer, encBody]
    have hbits2 : lowBits b (shl (compressFull .raw p none (s0 :: S)) b).1
          ++ bitsOfBytes ((shl (compressFull .raw p none (s0 :: S)) b).2.2.drop
            (shl (compressFull .raw p none (s0 :: S)) b).2.1)
        = bitsOfBytes (encToks (tokenize p (s0 :: S)) ++ encTok .eos)
          ++ List.replicate (b % 8) false := by
      rw [hshl, hBraw]
    have hfuel : (tokenize p (s0 :: S)).length + 1
        ≤ (lowBits b (shl (compressFull .raw p none (s0 :: S)) b).1
          ++ bitsOfBytes ((shl (compressFull .raw p none (s0 :: S)) b).2.2.drop
            (shl (compressFull .raw p none (s0 :: S)) b).2.1)).length := by
      rw [show (lowBits b (shl (compressFull .raw p none (s0 :: S)) b).1
          ++ bitsOfBytes ((shl (compressFull .raw p none (s0 :: S)) b).2.2.drop
            (shl (compressFull .raw p none (s0 :: S)) b).2.1)).length
        = (bitsOfBytes (encToks (tokenize p (s0 :: S)) ++ encTok .eos)
            ++ List.replicate (b % 8) false).length from by rw [hbits2]]
      simp only [List.length_append, List.length_replicate, bitsOfBytes_length,
        encTok, List.length_cons, List.length_nil]
      have h1 := length_le_encToks (tokenize p (s0 :: S))
      omega
    have hr := infLoop_streamRawT .noFlush
      (⟨.raw, .body,
        lowBits b (shl (compressFull .raw p none (s0 :: S)) b).1
          ++ bitsOfBytes ((shl (compressFull .raw p none (s0 :: S)) b).2.2.drop
            (shl (compressFull .raw p none (s0 :: S)) b).2.1),
        [], 1,
        0 + ((shl (compressFull .raw p none (s0 :: S)) b).2.2.drop
          (shl (compressFull .raw p none (s0 :: S)) b).2.1).length,
        0, 0⟩ : InfState)
      (tokenize p (s0 :: S)) (s0 :: S) (s0 :: S).length
      (lowBits b (shl (compressFull .raw p none (s0 :: S)) b).1
        ++ bitsOfBytes ((shl (compressFull .raw p none (s0 :: S)) b).2.2.drop
          (shl (compressFull .raw p none (s0 :: S)) b).2.1)).length
      (List.replicate (b % 8) false)
      rfl (plainTok_tokenize p (s0 :: S)) (outToks_tokenize p (s0 :: S)) rfl
      hbits2 hfuel (le_refl _)
    have hcall := inflate_eq_of
      (⟨.raw, .body,
        lowBits b (shl (compressFull .raw p none (s0 :: S)) b).1,
        [], 1, 0, 0, 0⟩ : InfState) _ _
      ((shl (compressFull .raw p none (s0 :: S)) b).2.2.drop
        (shl (compressFull .raw p none (s0 :: S)) b).2.1)
      (s0 :: S).length .noFlush (s0 :: S) .streamEnd
      (by simp) (by simp) (parseHeader_body _ rfl) rfl rfl hr (by simp)
    rw [hprime]
    refine ⟨rfl, ?_, ?_⟩
    · rw [hcall]
    · rw [hcall]
  · intro st h1 h2
    obtain ⟨fr, ph, bits, pend, adl, tin, tout, dt⟩ := st
    simp only at h1 h2
    cases ph <;> simp_all [inflatePrime, lowBits]

theorem c8_inflate_prime_witness :
    (3 : Nat) < 17 ∧
    (inflate (inflatePrime (inflateInit .raw) 3
         (shl (compressFull .raw ⟨6, 0⟩ none ((104 : Byte) :: [105])) 3).1).2
       ((shl (compressFull .raw ⟨6, 0⟩ none ((104 : Byte) :: [105])) 3).2.2.drop
         (shl (compressFull .raw ⟨6, 0⟩ none ((104 : Byte) :: [105])) 3).2.1)
       ((104 : Byte) :: [105]).length .noFlush).1 = (104 : Byte) :: [105] ∧
    (inflate (inflatePrime (inflateInit .raw) 3
         (shl (compressFull .raw ⟨6, 0⟩ none ((104 : Byte) :: [105])) 3).1).2
       ((shl (compressFull .raw ⟨6, 0⟩ none ((104 : Byte) :: [105])) 3).2.2.drop
         (shl (compressFull .raw ⟨6, 0⟩ none ((104 : Byte) :: [105])) 3).2.1)
       ((104 : Byte) :: [105]).length .noFlush).2.1 = .streamEnd ∧
    inflatePrime (inflateInit .raw) 0 0 = (.ok, inflateInit .raw) :=
  ⟨by decide,
   (c8_inflate_prime ⟨6, 0⟩ 3 (by decide) 104 [105]).1.2.1,
   (c8_inflate_prime ⟨6, 0⟩ 3 (by decide) 104 [105]).1.2.2,
   (c8_inflate_prime ⟨6, 0⟩ 3 (by decide) 104 [105]).2 (inflateInit .raw)
     (by decide) (by decide)⟩

/-! ## One-shot convenience compression -/

/-- Modelled from the spec: the parameter set the one-shot helper runs
with — the default level marker and default strategy. -/
def defaultParams : DParams := ⟨-1, 0⟩

/-- Modelled from the spec: `compressBound(sourceLen)` — a destination
capacity always sufficient for the one-shot helper's output (header,
worst-case body, terminator, trailer). -/
def compressBound (n : Nat) : Nat := 2 + 3 * n + 1 + 4

/-- Modelled from the spec: the one-shot
`compress(dest, dest_len, source, source_len)` convenience operation — a
thin caller of the streaming engine that produces the whole
default-level zlib-framed stream of the source, returning the output
and the exact number of bytes written, and failing distinctly when the
destination capacity is insufficient (spec: one-shot operations "must
return the exact output length written and fail distinctly when the
destination buffer is insufficient"). -/
def compress (destLen : Nat) (source : List Byte) : ZStatus × List Byte × Nat :=
  let out := compressFull .zlib defaultParams none source
  if out.length ≤ destLen then (.ok, out, out.length) else (.bufError, [], 0)

set_option maxRecDepth 100000 in
theorem compressFull_replicate_4096_length :
    (compressFull .zlib defaultParams none
      (List.replicate 4096 (65 : Byte))).length = 58 := by
  decide

set_option maxRecDepth 100000 in
/-- C9: the one-shot compress of the 4096-byte buffer of ASCII 'A's
(byte 65) at the default level succeeds within the bound-sized
destination, the written stream decompresses back to exactly the same
4096 bytes with `streamEnd`, and the written length is strictly smaller
than the 4096-byte input. -/
theorem c9_compress_default :
    (compress (compressBound 4096) (List.replicate 4096 (65 : Byte))).1 = .ok ∧
    (compress (compressBound 4096) (List.replicate 4096 (65 : Byte))).2.2
      < (List.replicate 4096 (65 : Byte)).length ∧
    (inflate (inflateInit .zlib)
        (compress (compressBound 4096) (List.replicate 4096 (65 : Byte))).2.1
        (List.replicate 4096 (65 : Byte)).length .noFlush).1
      = List.replicate 4096 (65 : Byte) ∧
    (inflate (inflateInit .zlib)
        (compress (compressBound 4096) (List.replicate 4096 (65 : Byte))).2.1
        (List.replicate 4096 (65 : Byte)).length .noFlush).2.1 = .streamEnd := by
  have hif : (compressFull .zlib defaultParams none
      (List.replicate 4096 (65 : Byte))).length ≤ compressBound 4096 := by
    rw [compressFull_replicate_4096_length]
    norm_num [compressBound]
  have hc : compress (compressBound 4096) (List.replicate 4096 (65 : Byte))
      = (.ok, compressFull .zlib defaultParams none (List.replicate 4096 (65 : Byte)),
         (compressFull .zlib defaultParams none
           (List.replicate 4096 (65 : Byte))).length) := by
    simp only [compress]
    rw [if_pos hif]
  have hrt := inflate_streamOf .zlib
    (tokenize defaultParams (List.replicate 4096 (65 : Byte)))
    (List.replicate 4096 (65 : Byte))
    (plainTok_tokenize _ _) (outToks_tokenize _ _)
  have hco : compressFull .zlib defaultParams none (List.replicate 4096 (65 : Byte))
      = streamOf .zlib none
          (encToks (tokenize defaultParams (List.replicate 4096 (65 : Byte))))
          (List.replicate 4096 (65 : Byte)) := rfl
  have hc1 : (compress (compressBound 4096) (List.replicate 4096 (65 : Byte))).1
      = .ok := by
    rw [hc]
  have hc2 : (compress (compressBound 4096) (List.replicate 4096 (65 : Byte))).2.2
      = (compressFull .zlib defaultParams none
          (List.replicate 4096 (65 : Byte))).length := by
    rw [hc]
  have hc3 : (compress (compressBound 4096) (List.replicate 4096 (65 : Byte))).2.1
      = streamOf .zlib none
          (encToks (tokenize defaultParams (List.replicate 4096 (65 : Byte))))
          (List.replicate 4096 (65 : Byte)) := by
    rw [hc, hco]
  refine ⟨hc1, ?_, ?_, ?_⟩
  · rw [hc2, compressFull_replicate_4096_length, List.length_replicate]
    norm_num
  · rw [hc3]
    exact hrt.1
  · rw [hc3]
    exact hrt.2

end RawZlib
